import Mathlib

/-!
Verification of the memory and transcript core of the `openclaw` assistant:
the BM25 document index (`src/memory/bm25.ts`), the retrieval pipeline with
temporal decay and MMR re-ranking and the context compactor
(`src/memory/memory-system.ts`), and the append-only transcript store with
line-level repair (`src/session/session-manager.ts`).

Modelling conventions, used throughout:

* A JavaScript `Map` becomes an association list: `get` reads the first
  binding of a key, `set` overwrites the first binding in place (appending a
  new binding when the key is absent), `delete` drops the first binding.
  On every state the code constructs, keys are unique, so this agrees with
  `Map` semantics including iteration order.
* IEEE doubles become real numbers (the standard idealisation for the
  BM25 / decay arithmetic); machine integers become `Int` / `Nat`.
* File contents are ASCII-modelled: `toLowerCase` is per-`Char` ASCII
  lowering, `\s` is `Char.isWhitespace`.
-/

namespace OpenClaw

/-- First-binding lookup, JavaScript `map.get(k)`. -/
def mget {α : Type} : List (String × α) → String → Option α
  | [], _ => none
  | (k', v) :: rest, k => if k' = k then some v else mget rest k

/-- JavaScript `map.set(k, v)`: overwrite the first binding of `k` in place,
or append a new binding when `k` is absent. -/
def mset {α : Type} (k : String) (v : α) : List (String × α) → List (String × α)
  | [] => [(k, v)]
  | (k', v') :: rest => if k' = k then (k, v) :: rest else (k', v') :: mset k v rest

/-- JavaScript `map.delete(k)`: drop the first binding of `k`. -/
def mdel {α : Type} (k : String) : List (String × α) → List (String × α)
  | [] => []
  | (k', v') :: rest => if k' = k then rest else (k', v') :: mdel k rest

/-- Counter lookup with the `?? 0` default the index uses everywhere. -/
def getD (m : List (String × Nat)) (k : String) : Nat := (mget m k).getD 0

/-- The keys of a map, in iteration order. -/
def mkeys {α : Type} (m : List (String × α)) : List String := m.map Prod.fst

/-- A map whose keys are pairwise distinct (true of every map the code builds). -/
def KeyNodup {α : Type} (m : List (String × α)) : Prop := (m.map Prod.fst).Nodup

/-- A character kept by the tokenizer: the class `[a-z0-9]` of
`BM25Index.tokenize`'s split regex. -/
def isTokChar (c : Char) : Bool := ('a' ≤ c && c ≤ 'z') || ('0' ≤ c && c ≤ '9')

/-- Source `BM25Index.tokenize`: lowercase, split on runs of non-alphanumeric
characters, keep only tokens of length > 1.  (`String.split` on a regex run
is realised as `splitOnP` on single separators: the extra empty chunks that
produces are removed by the same length filter that removes them in the
source.) -/
def tokenize (text : String) : List String :=
  (((text.toList.map Char.toLower).splitOnP (fun c => !isTokChar c)).map
    (fun cs => String.mk cs)).filter (fun s => 1 < s.length)

/-- The term-frequency map `addDocument` builds: one pass over the tokens,
`tf[term] := (tf.get(term) ?? 0) + 1`. -/
def buildTF (terms : List String) : List (String × Nat) :=
  terms.foldl (fun m t => mset t (getD m t + 1) m) []

/-- Record `IndexedDocument` of `bm25.ts`: `length` is the token count of the
content, `terms` the per-document term-frequency map. -/
structure IndexedDocument where
  id : String
  path : String
  content : String
  timestamp : Int
  terms : List (String × Nat)
  length : Nat
  deriving DecidableEq

/-- The mutable state of `BM25Index`: the document store and the global
document-frequency counters.  `k1 = 1.2` and `b = 0.75` stay at their
defaults (the constructor's `DEFAULT_BM25_CONFIG`), and `avgDocLength`,
which the source recomputes from scratch after every mutation, is kept as
the derived function `avgDocLength` below. -/
structure BM25Index where
  documents : List (String × IndexedDocument)
  documentFrequency : List (String × Nat)
  deriving DecidableEq

/-- A freshly constructed `BM25Index`. -/
def emptyIndex : BM25Index := ⟨[], []⟩

/-- The document-frequency update loop of `removeDocument` (also run by
`addDocument` for the old version of a re-indexed document): for each term
key, decrement the counter, deleting it when it would reach zero. -/
def dfSubtract (ks : List String) (df : List (String × Nat)) : List (String × Nat) :=
  ks.foldl (fun m t => if 1 < getD m t then mset t (getD m t - 1) m else mdel t m) df

/-- The document-frequency update loop of `addDocument`: increment the
counter of each term key of the new document. -/
def dfAdd (ks : List String) (df : List (String × Nat)) : List (String × Nat) :=
  ks.foldl (fun m t => mset t (getD m t + 1) m) df

/-- Source `BM25Index.addDocument(id, path, content, timestamp)`. -/
def addDocument (st : BM25Index) (id path content : String) (timestamp : Int) :
    BM25Index :=
  let terms := tokenize content
  let termFrequency := buildTF terms
  let df1 :=
    match mget st.documents id with
    | some existingDoc => dfSubtract (mkeys existingDoc.terms) st.documentFrequency
    | none => st.documentFrequency
  { documents :=
      mset id ⟨id, path, content, timestamp, termFrequency, terms.length⟩ st.documents,
    documentFrequency := dfAdd (mkeys termFrequency) df1 }

/-- Source `BM25Index.removeDocument(id)`: the updated index and the returned
`Bool` (whether the document existed). -/
def removeDocument (st : BM25Index) (id : String) : BM25Index × Bool :=
  match mget st.documents id with
  | none => (st, false)
  | some doc =>
      (⟨mdel id st.documents, dfSubtract (mkeys doc.terms) st.documentFrequency⟩, true)

/-- A mutation of the index: the two operations of the public interface. -/
inductive IndexOp where
  | add (id path content : String) (timestamp : Int)
  | remove (id : String)

/-- Run one mutation. -/
def applyOp (st : BM25Index) : IndexOp → BM25Index
  | .add id path content ts => addDocument st id path content ts
  | .remove id => (removeDocument st id).fst

/-- Run a sequence of mutations on a fresh index. -/
def applyOps (ops : List IndexOp) : BM25Index := ops.foldl applyOp emptyIndex

/-- A document's term map contains the term (`doc.terms.has(t)` in effect:
what the `search` scoring reads as `tf ≠ 0` and the df loops walk as keys). -/
def docHasTerm (d : IndexedDocument) (t : String) : Bool := (mget d.terms t).isSome

/-- The number of currently stored documents whose term map contains `t`. -/
def docFreqCount (st : BM25Index) (t : String) : Nat :=
  (st.documents.filter (fun p => docHasTerm p.2 t)).length

/-- The structural invariants `BM25Index` maintains: unique keys everywhere
and document-frequency counters equal to the actual document counts. -/
structure WF (st : BM25Index) : Prop where
  docsNodup : KeyNodup st.documents
  dfNodup : KeyNodup st.documentFrequency
  termsNodup : ∀ p ∈ st.documents, KeyNodup p.2.terms
  termsLen : ∀ p ∈ st.documents, p.2.terms ≠ [] → 1 ≤ p.2.length
  dfCorrect : ∀ t, getD st.documentFrequency t = docFreqCount st t

/-! Association-list lemmas for the JS `Map` model. -/

theorem mget_mset {α : Type} (k : String) (v : α) (m : List (String × α)) (t : String) :
    mget (mset k v m) t = if k = t then some v else mget m t := by
  induction m with
  | nil => by_cases h : k = t <;> simp [mset, mget, h]
  | cons a rest ih =>
    obtain ⟨k', v'⟩ := a
    by_cases hk : k' = k
    · subst hk
      by_cases ht : k' = t
      · subst ht; simp [mset, mget]
      · simp [mset, mget, ht]
    · by_cases ht : k' = t
      · subst ht
        have hkt : ¬ k = k' := fun hh => hk hh.symm
        simp [mset, hk, mget, hkt]
      · simp [mset, hk, mget, ht, ih]

theorem mget_mdel_ne {α : Type} (k : String) (m : List (String × α)) (t : String)
    (h : k ≠ t) : mget (mdel k m) t = mget m t := by
  induction m with
  | nil => simp [mdel]
  | cons a rest ih =>
    obtain ⟨k', v'⟩ := a
    by_cases hk : k' = k
    · subst hk
      simp [mdel, mget, h]
    · by_cases ht : k' = t
      · subst ht
        simp [mdel, hk, mget]
      · simp [mdel, hk, mget, ht, ih]

theorem mget_isSome_iff {α : Type} (m : List (String × α)) (t : String) :
    (mget m t).isSome = true ↔ t ∈ m.map Prod.fst := by
  induction m with
  | nil => simp [mget]
  | cons a rest ih =>
    obtain ⟨k', v'⟩ := a
    by_cases ht : k' = t
    · subst ht; simp [mget]
    · simp [mget, ht, ih, Ne.symm ht]

theorem mget_eq_none_iff {α : Type} (m : List (String × α)) (t : String) :
    mget m t = none ↔ t ∉ m.map Prod.fst := by
  rw [← mget_isSome_iff]
  cases mget m t <;> simp

theorem mget_mdel_self {α : Type} (k : String) (m : List (String × α))
    (h : KeyNodup m) : mget (mdel k m) k = none := by
  induction m with
  | nil => simp [mdel, mget]
  | cons a rest ih =>
    obtain ⟨k', v'⟩ := a
    have hrest : KeyNodup rest := (List.nodup_cons.mp h).2
    by_cases hk : k' = k
    · subst hk
      simp only [mdel, if_pos rfl]
      rw [mget_eq_none_iff]
      exact (List.nodup_cons.mp h).1
    · simp [mdel, hk, mget, ih hrest]

theorem mkeys_mset {α : Type} (k : String) (v : α) (m : List (String × α)) :
    (mset k v m).map Prod.fst =
      if k ∈ m.map Prod.fst then m.map Prod.fst else m.map Prod.fst ++ [k] := by
  induction m with
  | nil => simp [mset]
  | cons a rest ih =>
    obtain ⟨k', v'⟩ := a
    by_cases hk : k' = k
    · subst hk; simp [mset]
    · simp only [mset, if_neg hk, List.map_cons]
      rw [ih]
      by_cases hmem : k ∈ rest.map Prod.fst
      · simp [hmem, Ne.symm hk]
      · simp [hmem, Ne.symm hk]

theorem keyNodup_mset {α : Type} (k : String) (v : α) (m : List (String × α))
    (h : KeyNodup m) : KeyNodup (mset k v m) := by
  unfold KeyNodup at *
  rw [mkeys_mset]
  by_cases hmem : k ∈ m.map Prod.fst
  · simpa [hmem]
  · simpa [hmem, List.nodup_append] using h

theorem mdel_sublist {α : Type} (k : String) (m : List (String × α)) :
    (mdel k m).Sublist m := by
  induction m with
  | nil => simp [mdel]
  | cons a rest ih =>
    by_cases hk : a.1 = k
    · simpa [mdel, hk] using (List.sublist_cons_self a rest)
    · simpa [mdel, hk] using ih.cons₂ a

theorem keyNodup_mdel {α : Type} (k : String) (m : List (String × α))
    (h : KeyNodup m) : KeyNodup (mdel k m) := by
  exact h.sublist ((mdel_sublist k m).map Prod.fst)

theorem mem_mset {α : Type} (k : String) (v : α) (m : List (String × α))
    (p : String × α) (h : p ∈ mset k v m) : p = (k, v) ∨ p ∈ m := by
  induction m with
  | nil => simpa [mset] using h
  | cons a rest ih =>
    by_cases hk : a.1 = k
    · rcases (by simpa [mset, hk] using h : p = (k, v) ∨ p ∈ rest) with h1 | h1
      · exact Or.inl h1
      · exact Or.inr (List.mem_cons_of_mem _ h1)
    · rcases (by simpa [mset, hk] using h : p = a ∨ p ∈ mset k v rest) with h1 | h1
      · exact Or.inr (h1 ▸ List.mem_cons_self _ _)
      · rcases ih h1 with h2 | h2
        · exact Or.inl h2
        · exact Or.inr (List.mem_cons_of_mem _ h2)

theorem mem_mdel {α : Type} (k : String) (m : List (String × α))
    (p : String × α) (h : p ∈ mdel k m) : p ∈ m :=
  (mdel_sublist k m).subset h

theorem mget_mem {α : Type} (m : List (String × α)) (k : String) (v : α)
    (h : mget m k = some v) : (k, v) ∈ m := by
  induction m with
  | nil => simp [mget] at h
  | cons a rest ih =>
    obtain ⟨k', v'⟩ := a
    by_cases hk : k' = k
    · subst hk
      have hv : v' = v := by simpa [mget] using h
      subst hv
      exact List.mem_cons_self _ _
    · exact List.mem_cons_of_mem _ (ih (by simpa [mget, hk] using h))

theorem getD_mset (k : String) (v : Nat) (m : List (String × Nat)) (t : String) :
    getD (mset k v m) t = if k = t then v else getD m t := by
  simp only [getD, mget_mset]
  split_ifs <;> rfl

theorem getD_mdel_ne (k : String) (m : List (String × Nat)) (t : String) (h : k ≠ t) :
    getD (mdel k m) t = getD m t := by
  simp [getD, mget_mdel_ne k m t h]

theorem getD_mdel_self (k : String) (m : List (String × Nat)) (h : KeyNodup m) :
    getD (mdel k m) k = 0 := by
  simp [getD, mget_mdel_self k m h]

theorem keyNodup_dfAdd (ks : List String) (m : List (String × Nat)) (h : KeyNodup m) :
    KeyNodup (dfAdd ks m) := by
  induction ks generalizing m with
  | nil => simpa [dfAdd] using h
  | cons k ks ih =>
    simpa [dfAdd] using ih _ (keyNodup_mset k _ m h)

theorem keyNodup_dfSubtract (ks : List String) (m : List (String × Nat))
    (h : KeyNodup m) : KeyNodup (dfSubtract ks m) := by
  induction ks generalizing m with
  | nil => simpa [dfSubtract] using h
  | cons k ks ih =>
    simp only [dfSubtract, List.foldl_cons]
    by_cases hg : 1 < getD m k
    · simpa [dfSubtract, hg] using ih _ (keyNodup_mset k _ m h)
    · simpa [dfSubtract, hg] using ih _ (keyNodup_mdel k m h)

theorem keyNodup_buildTF (terms : List String) : KeyNodup (buildTF terms) := by
  have : buildTF terms = dfAdd terms [] := rfl
  rw [this]
  exact keyNodup_dfAdd terms [] (by simp [KeyNodup])

theorem getD_dfAdd (ks : List String) (m : List (String × Nat)) (t : String)
    (hks : ks.Nodup) :
    getD (dfAdd ks m) t = getD m t + (if t ∈ ks then 1 else 0) := by
  induction ks generalizing m with
  | nil => simp [dfAdd]
  | cons k ks ih =>
    have hnd := List.nodup_cons.mp hks
    simp only [dfAdd, List.foldl_cons] at *
    rw [ih _ hnd.2]
    by_cases ht : t = k
    · subst ht
      simp [getD_mset, hnd.1]
    · have hkt : ¬ k = t := fun h => ht h.symm
      simp [getD_mset, hkt, ht]

theorem getD_dfSubtract (ks : List String) (m : List (String × Nat)) (t : String)
    (hks : ks.Nodup) (hm : KeyNodup m) :
    getD (dfSubtract ks m) t = getD m t - (if t ∈ ks then 1 else 0) := by
  induction ks generalizing m with
  | nil => simp [dfSubtract]
  | cons k ks ih =>
    have hnd := List.nodup_cons.mp hks
    simp only [dfSubtract, List.foldl_cons] at *
    by_cases hg : 1 < getD m k
    · rw [if_pos hg, ih _ hnd.2 (keyNodup_mset k _ m hm)]
      by_cases ht : t = k
      · subst ht
        simp [getD_mset, hnd.1]
      · have hkt : ¬ k = t := fun h => ht h.symm
        simp [getD_mset, hkt, ht]
    · rw [if_neg hg, ih _ hnd.2 (keyNodup_mdel k m hm)]
      by_cases ht : t = k
      · subst ht
        simp only [getD_mdel_self t m hm, if_pos (List.mem_cons_self t ks), hnd.1]
        omega
      · rw [getD_mdel_ne k m t (fun h => ht h.symm)]
        simp [ht]

theorem filterlen_mset_absent {α : Type} (P : String × α → Bool) (k : String) (v : α)
    (m : List (String × α)) (h : mget m k = none) :
    ((mset k v m).filter P).length
      = (m.filter P).length + (if P (k, v) then 1 else 0) := by
  induction m with
  | nil => by_cases hp : P (k, v) <;> simp [mset, List.filter, hp]
  | cons a rest ih =>
    obtain ⟨k', v'⟩ := a
    by_cases hk : k' = k
    · subst hk; simp [mget] at h
    · have hrest : mget rest k = none := by simpa [mget, hk] using h
      by_cases hp : P (k', v') <;>
        simp [mset, hk, List.filter, hp, ih hrest] <;> omega

theorem filterlen_mset_present {α : Type} (P : String × α → Bool) (k : String) (v : α)
    (m : List (String × α)) (old : α) (h : mget m k = some old) :
    ((mset k v m).filter P).length + (if P (k, old) then 1 else 0)
      = (m.filter P).length + (if P (k, v) then 1 else 0) := by
  induction m with
  | nil => simp [mget] at h
  | cons a rest ih =>
    obtain ⟨k', v'⟩ := a
    by_cases hk : k' = k
    · subst hk
      have hv : v' = old := by simpa [mget] using h
      subst hv
      by_cases hp : P (k', v') <;> by_cases hq : P (k', v) <;>
        simp [mset, List.filter, hp, hq] <;> omega
    · have hrest : mget rest k = some old := by simpa [mget, hk] using h
      have hih := ih hrest
      by_cases hp : P (k', v') <;>
        simp [mset, hk, List.filter, hp] <;> omega

theorem filterlen_mdel {α : Type} (P : String × α → Bool) (k : String)
    (m : List (String × α)) (old : α) (h : mget m k = some old) :
    ((mdel k m).filter P).length + (if P (k, old) then 1 else 0)
      = (m.filter P).length := by
  induction m with
  | nil => simp [mget] at h
  | cons a rest ih =>
    obtain ⟨k', v'⟩ := a
    by_cases hk : k' = k
    · subst hk
      have hv : v' = old := by simpa [mget] using h
      subst hv
      by_cases hp : P (k', v') <;> simp [mdel, List.filter, hp] <;> omega
    · have hrest : mget rest k = some old := by simpa [mget, hk] using h
      have hih := ih hrest
      by_cases hp : P (k', v') <;>
        simp [mdel, hk, List.filter, hp] <;> omega

theorem mem_mkeys_iff_hasTerm (d : IndexedDocument) (t : String) :
    t ∈ mkeys d.terms ↔ docHasTerm d t = true := by
  simpa [mkeys, docHasTerm] using (mget_isSome_iff d.terms t).symm

theorem docFreqCount_pos (st : BM25Index) (id : String) (old : IndexedDocument)
    (t : String) (h : mget st.documents id = some old)
    (ht : docHasTerm old t = true) : 1 ≤ docFreqCount st t := by
  have hmem : (id, old) ∈ st.documents.filter (fun p => docHasTerm p.2 t) :=
    List.mem_filter.mpr ⟨mget_mem _ _ _ h, ht⟩
  exact List.length_pos.mpr (List.ne_nil_of_mem hmem)

theorem addDocument_def (st : BM25Index) (id path content : String) (ts : Int) :
    addDocument st id path content ts =
      { documents := mset id ⟨id, path, content, ts, buildTF (tokenize content),
          (tokenize content).length⟩ st.documents,
        documentFrequency := dfAdd (mkeys (buildTF (tokenize content)))
          (match mget st.documents id with
           | some d => dfSubtract (mkeys d.terms) st.documentFrequency
           | none => st.documentFrequency) } := rfl

theorem buildTF_nil_of_tokens_nil (terms : List String) (h : terms = []) :
    buildTF terms = [] := by
  subst h; rfl

theorem newDoc_termsLen (id path content : String) (ts : Int) :
    (⟨id, path, content, ts, buildTF (tokenize content),
      (tokenize content).length⟩ : IndexedDocument).terms ≠ [] →
    1 ≤ (⟨id, path, content, ts, buildTF (tokenize content),
      (tokenize content).length⟩ : IndexedDocument).length := by
  intro h
  by_cases htok : tokenize content = []
  · exact absurd (buildTF_nil_of_tokens_nil _ htok) h
  · simpa [Nat.one_le_iff_ne_zero, List.length_eq_zero] using htok

theorem WF_empty : WF emptyIndex := by
  refine ⟨?_, ?_, ?_, ?_, ?_⟩ <;> simp [emptyIndex, KeyNodup, getD, mget, docFreqCount]

theorem WF_addDocument (st : BM25Index) (id path content : String) (ts : Int)
    (h : WF st) : WF (addDocument st id path content ts) := by
  have htfN : (mkeys (buildTF (tokenize content))).Nodup := keyNodup_buildTF _
  rw [addDocument_def]
  cases hmg : mget st.documents id with
  | none =>
    refine ⟨keyNodup_mset _ _ _ h.docsNodup, ?_, ?_, ?_, ?_⟩
    · exact keyNodup_dfAdd _ _ h.dfNodup
    · intro p hp
      rcases mem_mset _ _ _ p hp with h1 | h1
      · subst h1; exact keyNodup_buildTF _
      · exact h.termsNodup p h1
    · intro p hp
      rcases mem_mset _ _ _ p hp with h1 | h1
      · subst h1; exact newDoc_termsLen id path content ts
      · exact h.termsLen p h1
    · intro t
      have hdfadd := getD_dfAdd (mkeys (buildTF (tokenize content)))
        st.documentFrequency t htfN
      have hcnt := filterlen_mset_absent (fun p => docHasTerm p.2 t) id
        ⟨id, path, content, ts, buildTF (tokenize content),
          (tokenize content).length⟩ st.documents hmg
      have hbase := h.dfCorrect t
      have hbridge : (t ∈ mkeys (buildTF (tokenize content))) ↔
          docHasTerm ⟨id, path, content, ts, buildTF (tokenize content),
            (tokenize content).length⟩ t = true :=
        mem_mkeys_iff_hasTerm ⟨id, path, content, ts, buildTF (tokenize content),
          (tokenize content).length⟩ t
      show getD (dfAdd (mkeys (buildTF (tokenize content))) st.documentFrequency) t
        = docFreqCount _ t
      unfold docFreqCount at *
      rw [hdfadd, hbase, hcnt, if_congr hbridge rfl rfl]
    | some old =>
    have hOldMem : (id, old) ∈ st.documents := mget_mem _ _ _ hmg
    have hOldN : (mkeys old.terms).Nodup := h.termsNodup (id, old) hOldMem
    refine ⟨keyNodup_mset _ _ _ h.docsNodup, ?_, ?_, ?_, ?_⟩
    · exact keyNodup_dfAdd _ _ (keyNodup_dfSubtract _ _ h.dfNodup)
    · intro p hp
      rcases mem_mset _ _ _ p hp with h1 | h1
      · subst h1; exact keyNodup_buildTF _
      · exact h.termsNodup p h1
    · intro p hp
      rcases mem_mset _ _ _ p hp with h1 | h1
      · subst h1; exact newDoc_termsLen id path content ts
      · exact h.termsLen p h1
    · intro t
      have hdfadd := getD_dfAdd (mkeys (buildTF (tokenize content)))
        (dfSubtract (mkeys old.terms) st.documentFrequency) t htfN
      have hdfsub := getD_dfSubtract (mkeys old.terms) st.documentFrequency t
        hOldN h.dfNodup
      have hcnt := filterlen_mset_present (fun p => docHasTerm p.2 t) id
        ⟨id, path, content, ts, buildTF (tokenize content),
          (tokenize content).length⟩ st.documents old hmg
      have hbase := h.dfCorrect t
      have hbridgeNew : (t ∈ mkeys (buildTF (tokenize content))) ↔
          docHasTerm ⟨id, path, content, ts, buildTF (tokenize content),
            (tokenize content).length⟩ t = true :=
        mem_mkeys_iff_hasTerm ⟨id, path, content, ts, buildTF (tokenize content),
          (tokenize content).length⟩ t
      have hbridgeOld : (t ∈ mkeys old.terms) ↔ docHasTerm old t = true :=
        mem_mkeys_iff_hasTerm _ t
      have hpos : docHasTerm old t = true → 1 ≤ docFreqCount st t :=
        docFreqCount_pos st id old t hmg
      have eOld : (if t ∈ mkeys old.terms then (1:Nat) else 0)
          = (if docHasTerm old t = true then 1 else 0) := by
        by_cases hh : t ∈ mkeys old.terms
        · rw [if_pos hh, if_pos (hbridgeOld.mp hh)]
        · rw [if_neg hh, if_neg (fun hc => hh (hbridgeOld.mpr hc))]
      have eNew : (if t ∈ mkeys (buildTF (tokenize content)) then (1:Nat) else 0)
          = (if docHasTerm (⟨id, path, content, ts, buildTF (tokenize content),
              (tokenize content).length⟩ : IndexedDocument) t = true
             then 1 else 0) := by
        by_cases hh : t ∈ mkeys (buildTF (tokenize content))
        · rw [if_pos hh, if_pos (hbridgeNew.mp hh)]
        · rw [if_neg hh, if_neg (fun hc => hh (hbridgeNew.mpr hc))]
      show getD (dfAdd (mkeys (buildTF (tokenize content)))
          (dfSubtract (mkeys old.terms) st.documentFrequency)) t = docFreqCount _ t
      unfold docFreqCount at *
      rw [hdfadd, hdfsub, hbase, eOld, eNew]
      by_cases hOld : docHasTerm old t = true <;>
        by_cases hNew : docHasTerm (⟨id, path, content, ts,
          buildTF (tokenize content), (tokenize content).length⟩ :
            IndexedDocument) t = true
      · have hp1 := hpos hOld
        simp [hOld, hNew] at hcnt ⊢
        omega
      · have hp1 := hpos hOld
        simp [hOld, hNew] at hcnt ⊢
        omega
      · simp [hOld, hNew] at hcnt ⊢
        omega
      · simp [hOld, hNew] at hcnt ⊢
        omega

theorem WF_removeDocument (st : BM25Index) (id : String) (h : WF st) :
    WF (removeDocument st id).fst := by
  cases hmg : mget st.documents id with
  | none => simpa [removeDocument, hmg] using h
  | some old =>
    have hOldMem : (id, old) ∈ st.documents := mget_mem _ _ _ hmg
    have hOldN : (mkeys old.terms).Nodup := h.termsNodup (id, old) hOldMem
    rw [show (removeDocument st id).fst
      = ⟨mdel id st.documents, dfSubtract (mkeys old.terms) st.documentFrequency⟩ by
        simp [removeDocument, hmg]]
    refine ⟨keyNodup_mdel _ _ h.docsNodup, keyNodup_dfSubtract _ _ h.dfNodup,
      ?_, ?_, ?_⟩
    · intro p hp
      exact h.termsNodup p (mem_mdel _ _ p hp)
    · intro p hp
      exact h.termsLen p (mem_mdel _ _ p hp)
    · intro t
      have hdfsub := getD_dfSubtract (mkeys old.terms) st.documentFrequency t
        hOldN h.dfNodup
      have hcnt := filterlen_mdel (fun p => docHasTerm p.2 t) id st.documents old hmg
      have hbase := h.dfCorrect t
      have hbridgeOld : (t ∈ mkeys old.terms) ↔ docHasTerm old t = true :=
        mem_mkeys_iff_hasTerm _ t
      have hpos : docHasTerm old t = true → 1 ≤ docFreqCount st t :=
        docFreqCount_pos st id old t hmg
      show getD (dfSubtract (mkeys old.terms) st.documentFrequency) t
        = docFreqCount _ t
      unfold docFreqCount at *
      rw [hdfsub, if_congr hbridgeOld rfl rfl, hbase]
      by_cases hOld : docHasTerm old t = true <;>
        simp only [hOld, if_true, if_false] at hcnt ⊢
      · have := hpos hOld
        simp only [hbase] at this
        omega
      · omega

theorem WF_applyOp (st : BM25Index) (op : IndexOp) (h : WF st) : WF (applyOp st op) := by
  cases op with
  | add id path content ts => exact WF_addDocument st id path content ts h
  | remove id => exact WF_removeDocument st id h

theorem WF_applyOps (ops : List IndexOp) : WF (applyOps ops) := by
  have main : ∀ (l : List IndexOp) (st : BM25Index), WF st → WF (l.foldl applyOp st) := by
    intro l
    induction l with
    | nil => intro st h; simpa using h
    | cons op rest ih => intro st h; exact ih _ (WF_applyOp st op h)
  exact main ops emptyIndex WF_empty

/-- C1: after every sequence of `addDocument` / `removeDocument` operations on
a fresh index (re-adding an existing id included), for every term the global
document-frequency counter equals the number of currently stored documents
whose per-document term-frequency map contains that term. -/
theorem C1_df_invariant (ops : List IndexOp) (t : String) :
    getD (applyOps ops).documentFrequency t = docFreqCount (applyOps ops) t :=
  (WF_applyOps ops).dfCorrect t

/-! The real-valued scoring layer of `BM25Index` (IEEE doubles as reals). -/

/-- The default `k1` parameter of `DEFAULT_BM25_CONFIG`. -/
noncomputable def bm25k1 : ℝ := 1.2

/-- The default `b` parameter of `DEFAULT_BM25_CONFIG`. -/
noncomputable def bm25b : ℝ := 0.75

/-- Source `BM25Index.updateAvgDocLength`, kept as the derived value it recomputes
after every mutation: 0 for an empty index, else mean token count. -/
noncomputable def avgDocLength (st : BM25Index) : ℝ :=
  if st.documents.length = 0 then 0
  else (st.documents.map (fun p => (p.2.length : ℝ))).sum / (st.documents.length : ℝ)

/-- Source `BM25Index.idf`: 0 when the term occurs nowhere or the index is empty,
else the standard BM25 idf formula. -/
noncomputable def idf (st : BM25Index) (t : String) : ℝ :=
  if getD st.documentFrequency t = 0 ∨ st.documents.length = 0 then 0
  else Real.log (((st.documents.length : ℝ) - (getD st.documentFrequency t : ℝ) + 0.5)
      / ((getD st.documentFrequency t : ℝ) + 0.5) + 1)

/-- Source `BM25Index.score(doc, queryTerms)`: fold over the query terms (duplicates
included, as in the source's `for` loop), skipping terms the document lacks;
`this.avgDocLength || 1` becomes the explicit 0-guard. -/
noncomputable def scoreDoc (st : BM25Index) (doc : IndexedDocument)
    (queryTerms : List String) : ℝ :=
  queryTerms.foldl (fun acc term =>
    let tf := getD doc.terms term
    if tf = 0 then acc
    else
      let lengthNorm := 1 - bm25b + bm25b * ((doc.length : ℝ) /
        (if avgDocLength st = 0 then 1 else avgDocLength st))
      let tfNorm := ((tf : ℝ) * (bm25k1 + 1)) / ((tf : ℝ) + bm25k1 * lengthNorm)
      acc + idf st term * tfNorm) 0

/-- An entry of the array `BM25Index.search` returns. -/
structure ScoredDoc where
  doc : IndexedDocument
  score : ℝ

/-- The comparator `(a, b) => b.score - a.score` as the Boolean order the
stable merge sort consumes: `a` may stay before `b` iff `b.score ≤ a.score`. -/
noncomputable def scoreLe (a b : ScoredDoc) : Bool :=
  @decide (b.score ≤ a.score) (Classical.propDecidable _)

/-- The `docScore > 0` filter of `BM25Index.search`. -/
noncomputable def posScore (r : ScoredDoc) : Bool :=
  @decide (0 < r.score) (Classical.propDecidable _)

/-- JavaScript `array.slice(0, n)`: a nonnegative `n` caps the length, a
negative `n` counts from the end (clamped at 0). -/
def jsSliceTo {α : Type} (n : Int) (l : List α) : List α :=
  if 0 ≤ n then l.take n.toNat else l.take (l.length - (-n).toNat)

/-- Source `BM25Index.search(query, limit)`: tokenize the query, score every stored
document in iteration order, keep strictly positive scores, sort by score
descending (stable, as JS `sort` is), and `slice(0, limit)`. -/
noncomputable def bm25search (st : BM25Index) (query : String) (lim : Int) :
    List ScoredDoc :=
  let queryTerms := tokenize query
  if queryTerms.isEmpty then []
  else
    let results :=
      (st.documents.map (fun p => ScoredDoc.mk p.2 (scoreDoc st p.2 queryTerms))).filter
        posScore
    jsSliceTo lim (results.mergeSort scoreLe)

/-- The score formula exactly as the specification writes it:
`Σ_t idf(t) · tf(t,d) · (k1+1) / (tf(t,d) + k1 · (1 − b + b · docLen/avgDocLen))`
with `idf(t) = ln((N − df(t) + 0.5)/(df(t) + 0.5) + 1)`, summed over the
query terms. -/
noncomputable def specScore (st : BM25Index) (queryTerms : List String)
    (d : IndexedDocument) : ℝ :=
  (queryTerms.map (fun t =>
    Real.log (((st.documents.length : ℝ) - (getD st.documentFrequency t : ℝ) + 0.5)
        / ((getD st.documentFrequency t : ℝ) + 0.5) + 1)
      * ((getD d.terms t : ℝ) * (bm25k1 + 1))
      / ((getD d.terms t : ℝ)
          + bm25k1 * (1 - bm25b + bm25b * ((d.length : ℝ) / avgDocLength st))))).sum

/-- A document matches the query if it contains at least one query term
(what the `docScore > 0` filter turns out to select). -/
def hasQueryTerm (qts : List String) (d : IndexedDocument) : Bool :=
  qts.any (fun t => decide (getD d.terms t ≠ 0))

/-- The number of stored documents containing at least one query term. -/
def matchingCount (st : BM25Index) (qts : List String) : Nat :=
  (st.documents.filter (fun p => hasQueryTerm qts p.2)).length

/-! Facts about the scoring arithmetic, leading to the search contract. -/

/-- One query term's contribution inside `BM25Index.score`'s loop. -/
noncomputable def codeSummand (st : BM25Index) (doc : IndexedDocument)
    (term : String) : ℝ :=
  if getD doc.terms term = 0 then 0
  else idf st term * (((getD doc.terms term : ℝ) * (bm25k1 + 1)) /
    ((getD doc.terms term : ℝ) + bm25k1 * (1 - bm25b + bm25b * ((doc.length : ℝ) /
      (if avgDocLength st = 0 then 1 else avgDocLength st)))))

theorem foldl_accum_sum (f : String → ℝ) (p : String → Prop) [DecidablePred p]
    (l : List String) (a : ℝ) :
    l.foldl (fun acc t => if p t then acc else acc + f t) a
      = a + (l.map (fun t => if p t then 0 else f t)).sum := by
  induction l generalizing a with
  | nil => simp
  | cons t rest ih =>
    by_cases hp : p t <;> simp [hp, ih, add_assoc]

theorem scoreDoc_eq_sum (st : BM25Index) (doc : IndexedDocument)
    (qts : List String) :
    scoreDoc st doc qts = (qts.map (codeSummand st doc)).sum := by
  have h := foldl_accum_sum
    (fun term => idf st term * (((getD doc.terms term : ℝ) * (bm25k1 + 1)) /
      ((getD doc.terms term : ℝ) + bm25k1 * (1 - bm25b + bm25b * ((doc.length : ℝ) /
        (if avgDocLength st = 0 then 1 else avgDocLength st))))))
    (fun term => getD doc.terms term = 0) qts 0
  simpa [scoreDoc, codeSummand] using h

theorem avgDocLength_nonneg (st : BM25Index) : 0 ≤ avgDocLength st := by
  unfold avgDocLength
  split
  · exact le_refl 0
  · apply div_nonneg
    · apply List.sum_nonneg
      intro x hx
      obtain ⟨p, _, hpx⟩ := List.mem_map.mp hx
      simpa [← hpx] using Nat.cast_nonneg p.2.length
    · exact Nat.cast_nonneg _

theorem avgGuard_pos (st : BM25Index) :
    0 < (if avgDocLength st = 0 then 1 else avgDocLength st) := by
  split
  · norm_num
  · exact lt_of_le_of_ne (avgDocLength_nonneg st) (by tauto)

theorem lengthNorm_pos (st : BM25Index) (doc : IndexedDocument) :
    0 < 1 - bm25b + bm25b * ((doc.length : ℝ) /
      (if avgDocLength st = 0 then 1 else avgDocLength st)) := by
  have h1 : (0:ℝ) ≤ (doc.length : ℝ) /
      (if avgDocLength st = 0 then 1 else avgDocLength st) :=
    div_nonneg (Nat.cast_nonneg _) (le_of_lt (avgGuard_pos st))
  have h2 : (0:ℝ) ≤ bm25b * ((doc.length : ℝ) /
      (if avgDocLength st = 0 then 1 else avgDocLength st)) :=
    mul_nonneg (by norm_num [bm25b]) h1
  have h3 : (0:ℝ) < 1 - bm25b := by norm_num [bm25b]
  linarith

theorem docFreqCount_le (st : BM25Index) (t : String) :
    docFreqCount st t ≤ st.documents.length :=
  List.length_filter_le _ _

theorem docHasTerm_of_getD_ne (d : IndexedDocument) (t : String)
    (h : getD d.terms t ≠ 0) : docHasTerm d t = true := by
  unfold docHasTerm
  unfold getD at h
  cases hm : mget d.terms t
  · simp [hm] at h
  · simp

theorem terms_ne_nil_of_getD_ne (d : IndexedDocument) (t : String)
    (h : getD d.terms t ≠ 0) : d.terms ≠ [] := by
  intro hnil
  simp [getD, hnil, mget] at h

theorem idf_nonneg (st : BM25Index) (t : String)
    (hdfN : getD st.documentFrequency t ≤ st.documents.length) : 0 ≤ idf st t := by
  unfold idf
  split
  · exact le_refl 0
  · apply Real.log_nonneg
    have hnum : (0:ℝ) ≤ (st.documents.length : ℝ)
        - (getD st.documentFrequency t : ℝ) + 0.5 := by
      have := (Nat.cast_le (α := ℝ)).mpr hdfN
      linarith
    have hden : (0:ℝ) < (getD st.documentFrequency t : ℝ) + 0.5 := by positivity
    have := div_nonneg hnum (le_of_lt hden)
    linarith

theorem idf_pos (st : BM25Index) (t : String)
    (hdf1 : 1 ≤ getD st.documentFrequency t)
    (hdfN : getD st.documentFrequency t ≤ st.documents.length) : 0 < idf st t := by
  unfold idf
  rw [if_neg (by push_neg; omega)]
  apply Real.log_pos
  have hnum : (0:ℝ) < (st.documents.length : ℝ)
      - (getD st.documentFrequency t : ℝ) + 0.5 := by
    have := (Nat.cast_le (α := ℝ)).mpr hdfN
    linarith
  have hden : (0:ℝ) < (getD st.documentFrequency t : ℝ) + 0.5 := by positivity
  have := div_pos hnum hden
  linarith

theorem docFreqCount_pos_of_mem (st : BM25Index) (k : String) (d : IndexedDocument)
    (t : String) (hmem : (k, d) ∈ st.documents) (ht : docHasTerm d t = true) :
    1 ≤ docFreqCount st t := by
  have hmf : (k, d) ∈ st.documents.filter (fun p => docHasTerm p.2 t) :=
    List.mem_filter.mpr ⟨hmem, ht⟩
  exact List.length_pos.mpr (List.ne_nil_of_mem hmf)

theorem codeSummand_pos (st : BM25Index) (h : WF st) (k : String)
    (d : IndexedDocument) (hmem : (k, d) ∈ st.documents) (term : String)
    (htf : getD d.terms term ≠ 0) : 0 < codeSummand st d term := by
  have hdf1 : 1 ≤ getD st.documentFrequency term := by
    rw [h.dfCorrect term]
    exact docFreqCount_pos_of_mem st k d term hmem (docHasTerm_of_getD_ne d term htf)
  have hdfN : getD st.documentFrequency term ≤ st.documents.length := by
    rw [h.dfCorrect term]
    exact docFreqCount_le st term
  have hidf := idf_pos st term hdf1 hdfN
  have hln := lengthNorm_pos st d
  have htfR : (1:ℝ) ≤ (getD d.terms term : ℝ) := by
    exact_mod_cast Nat.one_le_iff_ne_zero.mpr htf
  unfold codeSummand
  rw [if_neg htf]
  apply mul_pos hidf
  apply div_pos
  · apply mul_pos (by linarith) (by norm_num [bm25k1])
  · have h2 : (0:ℝ) < bm25k1 * (1 - bm25b + bm25b * ((d.length : ℝ) /
        (if avgDocLength st = 0 then 1 else avgDocLength st))) :=
      mul_pos (by norm_num [bm25k1]) hln
    linarith

theorem codeSummand_nonneg (st : BM25Index) (h : WF st) (k : String)
    (d : IndexedDocument) (hmem : (k, d) ∈ st.documents) (term : String) :
    0 ≤ codeSummand st d term := by
  by_cases htf : getD d.terms term = 0
  · simp [codeSummand, htf]
  · exact le_of_lt (codeSummand_pos st h k d hmem term htf)

theorem list_sum_pos_of_mem (l : List ℝ) (hnn : ∀ x ∈ l, 0 ≤ x) (x : ℝ)
    (hx : x ∈ l) (hpos : 0 < x) : 0 < l.sum := by
  have hle := List.single_le_sum hnn x hx
  linarith

theorem scoreDoc_pos_iff (st : BM25Index) (h : WF st) (k : String)
    (d : IndexedDocument) (hmem : (k, d) ∈ st.documents) (qts : List String) :
    0 < scoreDoc st d qts ↔ hasQueryTerm qts d = true := by
  rw [scoreDoc_eq_sum]
  constructor
  · intro hpos
    by_contra hq
    have hall : ∀ t ∈ qts, getD d.terms t = 0 := by
      intro t ht
      by_contra hne
      exact hq (by
        unfold hasQueryTerm
        rw [List.any_eq_true]
        exact ⟨t, ht, by simpa using hne⟩)
    have hz : (qts.map (codeSummand st d)).sum = 0 := by
      apply List.sum_eq_zero
      intro x hx
      obtain ⟨t, ht, rfl⟩ := List.mem_map.mp hx
      simp [codeSummand, hall t ht]
    rw [hz] at hpos
    exact lt_irrefl 0 hpos
  · intro hq
    obtain ⟨t, ht, htf⟩ := List.any_eq_true.mp hq
    have htf' : getD d.terms t ≠ 0 := of_decide_eq_true htf
    apply list_sum_pos_of_mem _ _ (codeSummand st d t)
    · exact List.mem_map.mpr ⟨t, ht, rfl⟩
    · exact codeSummand_pos st h k d hmem t htf'
    · intro x hx
      obtain ⟨t', ht', rfl⟩ := List.mem_map.mp hx
      exact codeSummand_nonneg st h k d hmem t'

theorem avgDocLength_pos_of_mem (st : BM25Index) (h : WF st) (k : String)
    (d : IndexedDocument) (hmem : (k, d) ∈ st.documents) (hne : d.terms ≠ []) :
    0 < avgDocLength st := by
  have hlen : 1 ≤ d.length := h.termsLen (k, d) hmem hne
  have hmemlen : ((d.length : ℝ)) ∈ st.documents.map (fun p => (p.2.length : ℝ)) :=
    List.mem_map.mpr ⟨(k, d), hmem, rfl⟩
  have hsum : (d.length : ℝ) ≤ (st.documents.map (fun p => (p.2.length : ℝ))).sum :=
    List.single_le_sum (by
      intro x hx
      obtain ⟨p, _, hpx⟩ := List.mem_map.mp hx
      simpa [← hpx] using Nat.cast_nonneg p.2.length) _ hmemlen
  have hlen1 : (1:ℝ) ≤ (d.length : ℝ) := by exact_mod_cast hlen
  have hN : st.documents.length ≠ 0 := by
    intro h0
    rw [List.length_eq_zero] at h0
    simp [h0] at hmem
  unfold avgDocLength
  rw [if_neg hN]
  exact div_pos (by linarith)
    (by exact_mod_cast Nat.pos_of_ne_zero hN)

theorem scoreDoc_eq_specScore (st : BM25Index) (h : WF st) (k : String)
    (d : IndexedDocument) (hmem : (k, d) ∈ st.documents) (qts : List String) :
    scoreDoc st d qts = specScore st qts d := by
  rw [scoreDoc_eq_sum]
  unfold specScore
  congr 1
  apply List.map_congr_left
  intro term _
  by_cases htf : getD d.terms term = 0
  · simp [codeSummand, htf]
  · have hne := terms_ne_nil_of_getD_ne d term htf
    have havg := avgDocLength_pos_of_mem st h k d hmem hne
    have hdf1 : 1 ≤ getD st.documentFrequency term := by
      rw [h.dfCorrect term]
      exact docFreqCount_pos_of_mem st k d term hmem (docHasTerm_of_getD_ne d term htf)
    have hN : st.documents.length ≠ 0 := by
      intro h0
      rw [List.length_eq_zero] at h0
      simp [h0] at hmem
    unfold codeSummand idf
    rw [if_neg htf, if_neg (by push_neg; exact ⟨by omega, hN⟩),
      if_neg (ne_of_gt havg)]
    ring

theorem jsSliceTo_natCast {α : Type} (n : Nat) (l : List α) :
    jsSliceTo (n : Int) l = l.take n := by
  simp [jsSliceTo, Int.toNat_natCast]

theorem scoreLe_trans (a b c : ScoredDoc) (h1 : scoreLe a b = true)
    (h2 : scoreLe b c = true) : scoreLe a c = true := by
  unfold scoreLe at *
  rw [decide_eq_true_eq] at *
  exact le_trans h2 h1

theorem scoreLe_total (a b : ScoredDoc) : (scoreLe a b || scoreLe b a) = true := by
  unfold scoreLe
  rw [Bool.or_eq_true, decide_eq_true_eq, decide_eq_true_eq]
  exact le_total _ _

theorem filter_posScore_length (st : BM25Index) (h : WF st) (qts : List String) :
    ((st.documents.map (fun p => ScoredDoc.mk p.2 (scoreDoc st p.2 qts))).filter
      posScore).length = matchingCount st qts := by
  rw [List.filter_map, List.length_map]
  unfold matchingCount
  congr 1
  apply List.filter_congr
  intro p hp
  show posScore ⟨p.2, scoreDoc st p.2 qts⟩ = hasQueryTerm qts p.2
  rw [Bool.eq_iff_iff]
  unfold posScore
  rw [decide_eq_true_eq]
  exact scoreDoc_pos_iff st h p.1 p.2 (by simpa using hp) qts

theorem bm25search_contract (st : BM25Index) (hwf : WF st) (query : String)
    (lim : Nat) :
    (bm25search st query (lim : Int)).length ≤ lim
    ∧ List.Sorted (fun a b : ScoredDoc => b.score ≤ a.score)
        (bm25search st query (lim : Int))
    ∧ (∀ r ∈ bm25search st query (lim : Int),
        (∃ p ∈ st.documents, r.doc = p.2)
        ∧ r.score = specScore st (tokenize query) r.doc
        ∧ r.score ≠ 0
        ∧ hasQueryTerm (tokenize query) r.doc = true)
    ∧ (∀ p ∈ st.documents,
        hasQueryTerm (tokenize query) p.2 = true →
        matchingCount st (tokenize query) ≤ lim →
        ∃ r ∈ bm25search st query (lim : Int),
          r.doc = p.2 ∧ r.score = specScore st (tokenize query) p.2)
    ∧ (tokenize query = [] → bm25search st query (lim : Int) = [])
    ∧ (st.documents = [] → bm25search st query (lim : Int) = []) := by
  by_cases hq : (tokenize query).isEmpty = true
  · have hqnil : tokenize query = [] := by simpa using hq
    have hsearch : bm25search st query (lim : Int) = [] := by
      simp [bm25search, hq]
    refine ⟨by simp [hsearch], by simp [hsearch], by simp [hsearch], ?_,
      fun _ => hsearch, fun _ => hsearch⟩
    intro p hp hterm hcount
    rw [hqnil] at hterm
    simp [hasQueryTerm] at hterm
  · have hsearch : bm25search st query (lim : Int)
        = (((st.documents.map
            (fun p => ScoredDoc.mk p.2 (scoreDoc st p.2 (tokenize query)))).filter
              posScore).mergeSort scoreLe).take lim := by
      simp [bm25search, hq, jsSliceTo_natCast]
    have hperm := List.mergeSort_perm
      ((st.documents.map
        (fun p => ScoredDoc.mk p.2 (scoreDoc st p.2 (tokenize query)))).filter
          posScore) scoreLe
    have hsortPW := List.sorted_mergeSort scoreLe_trans scoreLe_total
      ((st.documents.map
        (fun p => ScoredDoc.mk p.2 (scoreDoc st p.2 (tokenize query)))).filter
          posScore)
    have hsortedProp : List.Sorted (fun a b : ScoredDoc => b.score ≤ a.score)
        (((st.documents.map
          (fun p => ScoredDoc.mk p.2 (scoreDoc st p.2 (tokenize query)))).filter
            posScore).mergeSort scoreLe) := by
      refine hsortPW.imp ?_
      intro a b hab
      have := of_decide_eq_true hab
      exact this
    refine ⟨?_, ?_, ?_, ?_, ?_, ?_⟩
    · rw [hsearch, List.length_take]
      exact min_le_left _ _
    · rw [hsearch]
      exact List.Pairwise.sublist (List.take_sublist _ _) hsortedProp
    · intro r hr
      rw [hsearch] at hr
      have hr1 := (List.take_sublist _ _).subset hr
      have hr2 := hperm.mem_iff.mp hr1
      obtain ⟨hrmap, hpos⟩ := List.mem_filter.mp hr2
      obtain ⟨p, hp, hpr⟩ := List.mem_map.mp hrmap
      have hmem : (p.1, p.2) ∈ st.documents := by simpa using hp
      have hposR : 0 < r.score := by
        have := of_decide_eq_true hpos
        exact this
      refine ⟨⟨p, hp, by rw [← hpr]⟩, ?_, ne_of_gt hposR, ?_⟩
      · rw [← hpr]
        exact scoreDoc_eq_specScore st hwf p.1 p.2 hmem (tokenize query)
      · rw [← hpr]
        have : 0 < scoreDoc st p.2 (tokenize query) := by
          rw [← hpr] at hposR
          exact hposR
        exact (scoreDoc_pos_iff st hwf p.1 p.2 hmem (tokenize query)).mp this
    · intro p hp hterm hcount
      have hmem : (p.1, p.2) ∈ st.documents := by simpa using hp
      have hposP : 0 < scoreDoc st p.2 (tokenize query) :=
        (scoreDoc_pos_iff st hwf p.1 p.2 hmem (tokenize query)).mpr hterm
      have hr_map : ScoredDoc.mk p.2 (scoreDoc st p.2 (tokenize query))
          ∈ st.documents.map
            (fun q => ScoredDoc.mk q.2 (scoreDoc st q.2 (tokenize query))) :=
        List.mem_map.mpr ⟨p, hp, rfl⟩
      have hr_res : ScoredDoc.mk p.2 (scoreDoc st p.2 (tokenize query))
          ∈ (st.documents.map
            (fun q => ScoredDoc.mk q.2 (scoreDoc st q.2 (tokenize query)))).filter
              posScore :=
        List.mem_filter.mpr ⟨hr_map, decide_eq_true hposP⟩
      have hlen : ((st.documents.map
          (fun q => ScoredDoc.mk q.2 (scoreDoc st q.2 (tokenize query)))).filter
            posScore).length ≤ lim := by
        rw [filter_posScore_length st hwf (tokenize query)]
        exact hcount
      have htake : ((((st.documents.map
          (fun q => ScoredDoc.mk q.2 (scoreDoc st q.2 (tokenize query)))).filter
            posScore).mergeSort scoreLe)).take lim
          = (((st.documents.map
            (fun q => ScoredDoc.mk q.2 (scoreDoc st q.2 (tokenize query)))).filter
              posScore).mergeSort scoreLe) :=
        List.take_of_length_le (by
          rw [hperm.length_eq, filter_posScore_length st hwf (tokenize query)]
          exact hcount)
      refine ⟨ScoredDoc.mk p.2 (scoreDoc st p.2 (tokenize query)), ?_, rfl, ?_⟩
      · rw [hsearch, htake]
        exact hperm.mem_iff.mpr hr_res
      · exact scoreDoc_eq_specScore st hwf p.1 p.2 hmem (tokenize query)
    · intro hnil
      exact absurd (by rw [hnil]; rfl) hq
    · intro hdocs
      rw [hsearch, hdocs]
      simp

/-- C2: `search(query, limit)` tokenizes the query like documents, scores by
the specification's BM25 formula with the default `k1 = 1.2`, `b = 0.75`,
returns only documents containing at least one query term with a non-zero
score, sorted by score descending, at most `limit` entries (every matching
document appears whenever `limit` covers the number of matching documents),
and an empty query or an empty index yields no results. -/
theorem C2_search_contract (ops : List IndexOp) (query : String) (lim : Nat) :
    (bm25search (applyOps ops) query (lim : Int)).length ≤ lim
    ∧ List.Sorted (fun a b : ScoredDoc => b.score ≤ a.score)
        (bm25search (applyOps ops) query (lim : Int))
    ∧ (∀ r ∈ bm25search (applyOps ops) query (lim : Int),
        (∃ p ∈ (applyOps ops).documents, r.doc = p.2)
        ∧ r.score = specScore (applyOps ops) (tokenize query) r.doc
        ∧ r.score ≠ 0
        ∧ hasQueryTerm (tokenize query) r.doc = true)
    ∧ (∀ p ∈ (applyOps ops).documents,
        hasQueryTerm (tokenize query) p.2 = true →
        matchingCount (applyOps ops) (tokenize query) ≤ lim →
        ∃ r ∈ bm25search (applyOps ops) query (lim : Int),
          r.doc = p.2 ∧ r.score = specScore (applyOps ops) (tokenize query) p.2)
    ∧ (tokenize query = [] → bm25search (applyOps ops) query (lim : Int) = [])
    ∧ ((applyOps ops).documents = [] →
        bm25search (applyOps ops) query (lim : Int) = []) :=
  bm25search_contract (applyOps ops) (WF_applyOps ops) query lim

/-! The retrieval pipeline of `MemorySystem`: temporal decay, then MMR. -/

/-- Record `SearchResult` of `memory-system.ts`. -/
structure SearchResult where
  path : String
  content : String
  score : ℝ
  timestamp : Int

/-- The default half-life (`temporalDecayHalfLife = 7` days) in milliseconds,
as `search` computes it. -/
noncomputable def defaultHalfLifeMs : ℝ := 7 * 24 * 60 * 60 * 1000

/-- Source `MemorySystem.applyTemporalDecay` (the same formula is inlined in
`search`): `score * 0.5 ^ (ageMs / halfLifeMs)` with `ageMs = now − timestamp`. -/
noncomputable def applyTemporalDecay (now halfLifeMs score timestamp : ℝ) : ℝ :=
  score * (0.5 : ℝ) ^ ((now - timestamp) / halfLifeMs)

/-- The comparator `(a, b) => b.score - a.score` on `SearchResult`s. -/
noncomputable def srLe (a b : SearchResult) : Bool :=
  @decide (b.score ≤ a.score) (Classical.propDecidable _)

/-- The stable descending re-sort `search` applies after decay. -/
noncomputable def sortByScoreDesc (rs : List SearchResult) : List SearchResult :=
  rs.mergeSort srLe

/-- Lowercasing a string, ASCII-modelled (`text.toLowerCase()`). -/
def lowerStr (s : String) : String := String.mk (s.toList.map Char.toLower)

/-- Split at maximal runs of characters satisfying `p`, keeping the boundary
empty chunks JavaScript's `String.split` on a `+`-quantified class produces
(`"a  b" ↦ ["a","b"]`, `" a" ↦ ["","a"]`, `"a " ↦ ["a",""]`, `"" ↦ [""]`). -/
def splitRuns (p : Char → Bool) : List Char → List (List Char)
  | [] => [[]]
  | c :: cs =>
    if p c then
      match cs with
      | c2 :: _ =>
        if p c2 then splitRuns p cs else [] :: splitRuns p cs
      | [] => [] :: splitRuns p cs
    else
      match splitRuns p cs with
      | [] => [[c]]
      | h :: t => (c :: h) :: t

/-- JavaScript `text.split(/\s+/)` over the ASCII model. -/
def splitWs (text : String) : List String :=
  (splitRuns (fun c => c.isWhitespace) text.toList).map (fun cs => String.mk cs)

/-- Source `MemorySystem.jaccardSimilarity`: token-set Jaccard similarity of the
lowercased whitespace-split token sets. -/
noncomputable def jaccardSimilarity (text1 text2 : String) : ℝ :=
  let tokens1 := (splitWs (lowerStr text1)).dedup
  let tokens2 := (splitWs (lowerStr text2)).dedup
  let inter := tokens1.filter (fun x => decide (x ∈ tokens2))
  let union := (tokens1 ++ tokens2).dedup
  if union.length = 0 then 0 else (inter.length : ℝ) / (union.length : ℝ)

/-- The running `maxSimilarity` loop of `mmrRerank`: maximum Jaccard
similarity of a candidate to the already selected results, starting at 0. -/
noncomputable def maxSimTo (sel : List SearchResult) (c : SearchResult) : ℝ :=
  sel.foldl (fun m s => max m (jaccardSimilarity c.content s.content)) 0

/-- The marginal-relevance score of `mmrRerank`:
`lambda * relevance − (1 − lambda) * maxSimilarity`. -/
noncomputable def mmrScore (lam : ℝ) (sel : List SearchResult)
    (c : SearchResult) : ℝ :=
  lam * c.score - (1 - lam) * maxSimTo sel c

/-- The inner argmax scan of `mmrRerank`, fused with the `splice` that
removes the winner: the source seeds `bestMmrScore = -Infinity`, so the first
candidate always replaces the seed; ties keep the earliest candidate (strict
`>` replacement).  Returns the chosen candidate and the remaining list in
order. -/
noncomputable def pickMax (lam : ℝ) (sel : List SearchResult) :
    SearchResult → List SearchResult → SearchResult × List SearchResult
  | c, [] => (c, [])
  | c, d :: rest =>
    if mmrScore lam sel c < mmrScore lam sel d then
      let pr := pickMax lam sel d rest
      (pr.1, c :: pr.2)
    else
      let pr := pickMax lam sel c rest
      (pr.1, d :: pr.2)

/-- The `while (selected.length < limit && remaining.length > 0)` loop of
`mmrRerank`; the fuel is the length of `remaining`, which the loop consumes
one element per iteration. -/
noncomputable def mmrGo (lam : ℝ) (lim : Int) :
    Nat → List SearchResult → List SearchResult → List SearchResult
  | 0, sel, _ => sel
  | _ + 1, sel, [] => sel
  | fuel + 1, sel, c :: rest =>
    if (sel.length : Int) < lim then
      mmrGo lam lim fuel (sel ++ [(pickMax lam sel c rest).1])
        (pickMax lam sel c rest).2
    else sel

/-- Source `MemorySystem.mmrRerank(results, limit, lambda = 0.7)`. -/
noncomputable def mmrRerank (results : List SearchResult) (lim : Int)
    (lam : ℝ) : List SearchResult :=
  if results.length ≤ 1 then jsSliceTo lim results
  else
    match results with
    | [] => []
    | first :: rest => mmrGo lam lim rest.length [first] rest

/-- Source `MemorySystem.search(query, limit)`: BM25 candidates for `2 × limit`,
temporal decay against `now`, stable descending re-sort, then MMR with the
default `λ = 0.7`. -/
noncomputable def memSearch (st : BM25Index) (now halfLifeMs : ℝ)
    (query : String) (lim : Int) : List SearchResult :=
  let bm25Results := bm25search st query (lim * 2)
  if bm25Results.isEmpty then []
  else
    mmrRerank (sortByScoreDesc (bm25Results.map (fun r =>
      SearchResult.mk r.doc.path r.doc.content
        (applyTemporalDecay now halfLifeMs r.score (r.doc.timestamp : ℝ))
        r.doc.timestamp))) lim 0.7

theorem applyTemporalDecay_mono (s now h tOld tNew : ℝ) (hh : 0 < h) (hs : 0 ≤ s)
    (ht : tOld ≤ tNew) :
    applyTemporalDecay now h s tOld ≤ applyTemporalDecay now h s tNew := by
  unfold applyTemporalDecay
  apply mul_le_mul_of_nonneg_left _ hs
  apply Real.rpow_le_rpow_of_exponent_ge (by norm_num) (by norm_num)
  exact (div_le_div_right hh).mpr (by linarith)

theorem applyTemporalDecay_strict_mono (s now h tOld tNew : ℝ) (hh : 0 < h)
    (hs : 0 < s) (ht : tOld < tNew) :
    applyTemporalDecay now h s tOld < applyTemporalDecay now h s tNew := by
  unfold applyTemporalDecay
  apply mul_lt_mul_of_pos_left _ hs
  apply Real.rpow_lt_rpow_of_exponent_gt (by norm_num) (by norm_num)
  exact (div_lt_div_right hh).mpr (by linarith)

theorem srLe_trans (a b c : SearchResult) (h1 : srLe a b = true)
    (h2 : srLe b c = true) : srLe a c = true := by
  unfold srLe at *
  rw [decide_eq_true_eq] at *
  exact le_trans h2 h1

theorem srLe_total (a b : SearchResult) : (srLe a b || srLe b a) = true := by
  unfold srLe
  rw [Bool.or_eq_true, decide_eq_true_eq, decide_eq_true_eq]
  exact le_total _ _

theorem sortByScoreDesc_sorted (rs : List SearchResult) :
    List.Sorted (fun a b : SearchResult => b.score ≤ a.score)
      (sortByScoreDesc rs) := by
  refine (List.sorted_mergeSort srLe_trans srLe_total rs).imp ?_
  intro a b hab
  exact of_decide_eq_true hab

theorem sortByScoreDesc_perm (rs : List SearchResult) :
    (sortByScoreDesc rs).Perm rs :=
  List.mergeSort_perm rs srLe

theorem sorted_desc_rank (rs : List SearchResult)
    (i j : Fin (sortByScoreDesc rs).length)
    (hij : ((sortByScoreDesc rs).get i).score
      < ((sortByScoreDesc rs).get j).score) : (j : ℕ) < (i : ℕ) := by
  have hs := sortByScoreDesc_sorted rs
  by_contra hnot
  push_neg at hnot
  rcases lt_or_eq_of_le hnot with hlt | heqv
  · have := (List.pairwise_iff_get.mp hs) i j (by exact hlt)
    exact absurd hij (not_lt.mpr this)
  · have : i = j := Fin.ext heqv
    rw [this] at hij
    exact lt_irrefl _ hij

theorem maxSimTo_congr (sel : List SearchResult) (c1 c2 : SearchResult)
    (h : c1.content = c2.content) : maxSimTo sel c1 = maxSimTo sel c2 := by
  unfold maxSimTo
  rw [h]

theorem mmr_dominates (lam : ℝ) (x y : SearchResult) (hlam : 0 < lam)
    (hc : x.content = y.content) (hs : y.score < x.score)
    (sel : List SearchResult) : mmrScore lam sel y < mmrScore lam sel x := by
  unfold mmrScore
  rw [maxSimTo_congr sel y x hc.symm]
  have := mul_lt_mul_of_pos_left hs hlam
  linarith

theorem pickMax_spec (lam : ℝ) (sel : List SearchResult) (c : SearchResult)
    (rest : List SearchResult) :
    (pickMax lam sel c rest).1 ∈ c :: rest
    ∧ (∀ z ∈ c :: rest,
        mmrScore lam sel z ≤ mmrScore lam sel (pickMax lam sel c rest).1)
    ∧ (c :: rest).Perm ((pickMax lam sel c rest).1 :: (pickMax lam sel c rest).2) := by
  induction rest generalizing c with
  | nil =>
    refine ⟨by simp [pickMax], ?_, by simp [pickMax]⟩
    intro z hz
    rcases List.mem_cons.mp hz with rfl | hz
    · simp [pickMax]
    · cases hz
  | cons d rest ih =>
    by_cases hcd : mmrScore lam sel c < mmrScore lam sel d
    · obtain ⟨h1, h2, h3⟩ := ih d
      refine ⟨?_, ?_, ?_⟩
      · simp only [pickMax, if_pos hcd]
        rcases List.mem_cons.mp h1 with hm | hm
        · rw [hm]; exact List.mem_cons_of_mem _ (List.mem_cons_self _ _)
        · exact List.mem_cons_of_mem _ (List.mem_cons_of_mem _ hm)
      · intro z hz
        simp only [pickMax, if_pos hcd]
        rcases List.mem_cons.mp hz with rfl | hz
        · exact le_trans (le_of_lt hcd) (h2 d (List.mem_cons_self _ _))
        · exact h2 z hz
      · simp only [pickMax, if_pos hcd]
        exact (h3.cons c).trans (List.Perm.swap _ _ _)
    · obtain ⟨h1, h2, h3⟩ := ih c
      refine ⟨?_, ?_, ?_⟩
      · simp only [pickMax, if_neg hcd]
        rcases List.mem_cons.mp h1 with hm | hm
        · rw [hm]; exact List.mem_cons_self _ _
        · exact List.mem_cons_of_mem _ (List.mem_cons_of_mem _ hm)
      · intro z hz
        simp only [pickMax, if_neg hcd]
        rcases List.mem_cons.mp hz with rfl | hz
        · exact h2 z (List.mem_cons_self _ _)
        · rcases List.mem_cons.mp hz with rfl | hz
          · exact le_trans (not_lt.mp hcd) (h2 c (List.mem_cons_self _ _))
          · exact h2 z (List.mem_cons_of_mem _ hz)
      · simp only [pickMax, if_neg hcd]
        exact ((List.Perm.swap d c rest).trans (h3.cons d)).trans
          (List.Perm.swap _ _ _)

theorem mem_left_of_append_eq {α : Type} (a : List α) (y : α) :
    ∀ (l1 : List α) (t l2 : List α), a ++ t = l1 ++ y :: l2 → y ∉ a →
    ∀ x ∈ a, x ∈ l1 := by
  induction a with
  | nil => intro l1 t l2 _ _ x hx; cases hx
  | cons b a ih =>
    intro l1 t l2 heq hy x hx
    cases l1 with
    | nil =>
      simp only [List.nil_append, List.cons_append, List.cons.injEq] at heq
      exact absurd (heq.1 ▸ List.mem_cons_self b a) hy
    | cons b1 l1 =>
      simp only [List.cons_append, List.cons.injEq] at heq
      rcases List.mem_cons.mp hx with rfl | hx
      · rw [← heq.1]; exact List.mem_cons_self _ _
      · exact List.mem_cons_of_mem _
          (ih l1 t l2 heq.2 (fun hc => hy (List.mem_cons_of_mem _ hc)) x hx)

theorem mmrGo_extends (lam : ℝ) (lim : Int) (fuel : Nat) :
    ∀ (sel rem : List SearchResult),
    ∃ t, mmrGo lam lim fuel sel rem = sel ++ t ∧ ∀ z ∈ t, z ∈ rem := by
  induction fuel with
  | zero =>
    intro sel rem
    exact ⟨[], by simp [mmrGo], by simp⟩
  | succ fuel ih =>
    intro sel rem
    cases rem with
    | nil => exact ⟨[], by simp [mmrGo], by simp⟩
    | cons c rest =>
      by_cases hl : (sel.length : Int) < lim
      · obtain ⟨t, ht, hmem⟩ :=
          ih (sel ++ [(pickMax lam sel c rest).1]) (pickMax lam sel c rest).2
        refine ⟨(pickMax lam sel c rest).1 :: t, ?_, ?_⟩
        · simp only [mmrGo, if_pos hl, ht, List.append_assoc, List.singleton_append]
        · intro z hz
          obtain ⟨h1, _, h3⟩ := pickMax_spec lam sel c rest
          rcases List.mem_cons.mp hz with rfl | hz
          · exact h1
          · exact h3.symm.subset (List.mem_cons_of_mem _ (hmem z hz))
      · exact ⟨[], by simp [mmrGo, hl], by simp⟩

theorem mmrGo_blocked (lam : ℝ) (lim : Int) (x y : SearchResult)
    (hdom : ∀ sel, mmrScore lam sel y < mmrScore lam sel x) (fuel : Nat) :
    ∀ (sel rem : List SearchResult), x ∈ rem → y ∉ sel →
    ∀ l1 l2, mmrGo lam lim fuel sel rem = l1 ++ y :: l2 → x ∈ l1 := by
  induction fuel with
  | zero =>
    intro sel rem _ hy l1 l2 heq
    rw [show mmrGo lam lim 0 sel rem = sel from rfl] at heq
    exact absurd (heq ▸ List.mem_append.mpr
      (Or.inr (List.mem_cons_self _ _))) hy
  | succ fuel ih =>
    intro sel rem hx hy l1 l2 heq
    cases rem with
    | nil => exact absurd hx (List.not_mem_nil x)
    | cons c rest =>
      obtain ⟨h1, h2, h3⟩ := pickMax_spec lam sel c rest
      by_cases hl : (sel.length : Int) < lim
      · rw [show mmrGo lam lim (fuel + 1) sel (c :: rest)
            = mmrGo lam lim fuel (sel ++ [(pickMax lam sel c rest).1])
                (pickMax lam sel c rest).2 by
              simp [mmrGo, hl]] at heq
        have hmy : (pickMax lam sel c rest).1 ≠ y := by
          intro hmy
          have hxm := h2 x hx
          have hd := hdom sel
          rw [hmy] at hxm
          linarith
        have hy' : y ∉ sel ++ [(pickMax lam sel c rest).1] := by
          intro hc
          rcases List.mem_append.mp hc with hc | hc
          · exact hy hc
          · exact hmy (List.mem_singleton.mp hc).symm
        by_cases hxm : x = (pickMax lam sel c rest).1
        · obtain ⟨t, ht, _⟩ := mmrGo_extends lam lim fuel
            (sel ++ [(pickMax lam sel c rest).1]) (pickMax lam sel c rest).2
          rw [ht] at heq
          exact mem_left_of_append_eq _ y l1 t l2 heq hy' x
            (List.mem_append.mpr (Or.inr (by simpa using hxm)))
        · have hxr : x ∈ (pickMax lam sel c rest).2 := by
            rcases List.mem_cons.mp (h3.subset hx) with hc | hc
            · exact absurd hc hxm
            · exact hc
          exact ih _ _ hxr hy' l1 l2 heq
      · rw [show mmrGo lam lim (fuel + 1) sel (c :: rest) = sel by
          simp [mmrGo, hl]] at heq
        exact absurd (heq ▸ List.mem_append.mpr
          (Or.inr (List.mem_cons_self _ _))) hy

theorem mmrRerank_rank_preserved (lam : ℝ) (lim : Int)
    (cands : List SearchResult) (x y : SearchResult) (hlam : 0 < lam)
    (hc : x.content = y.content) (hs : y.score < x.score) (hx : x ∈ cands) :
    ∀ l1 l2, mmrRerank (sortByScoreDesc cands) lim lam = l1 ++ y :: l2 →
    x ∈ l1 := by
  intro l1 l2 heq
  have hdom := fun sel => mmr_dominates lam x y hlam hc hs sel
  have hxs : x ∈ sortByScoreDesc cands := (sortByScoreDesc_perm cands).symm.subset hx
  unfold mmrRerank at heq
  by_cases hlen : (sortByScoreDesc cands).length ≤ 1
  · rw [if_pos hlen] at heq
    have hsub : y ∈ sortByScoreDesc cands := by
      have : y ∈ jsSliceTo lim (sortByScoreDesc cands) := by
        rw [heq]
        exact List.mem_append.mpr (Or.inr (List.mem_cons_self _ _))
      unfold jsSliceTo at this
      split at this <;> exact (List.take_sublist _ _).subset this
    cases hds : sortByScoreDesc cands with
    | nil => rw [hds] at hxs; cases hxs
    | cons a tl =>
      rw [hds] at hlen hxs hsub
      have htl : tl = [] := by
        simp only [List.length_cons] at hlen
        exact List.length_eq_zero.mp (by omega)
      subst htl
      have hx1 : x = a := by simpa using hxs
      have hy1 : y = a := by simpa using hsub
      rw [hx1, hy1] at hs
      exact absurd hs (lt_irrefl _)
  · rw [if_neg hlen] at heq
    cases hds : sortByScoreDesc cands with
    | nil => rw [hds] at hxs; cases hxs
    | cons first rest =>
      rw [hds] at heq hxs
      have heq2 : mmrGo lam lim rest.length [first] rest = l1 ++ y :: l2 := heq
      have hsorted := sortByScoreDesc_sorted cands
      rw [hds] at hsorted
      have hfy : first ≠ y := by
        intro hfy
        rcases List.mem_cons.mp hxs with rfl | hxr
        · rw [hfy] at hs; exact lt_irrefl _ hs
        · have := (List.pairwise_cons.mp hsorted).1 x hxr
          rw [hfy] at this
          linarith
      by_cases hxf : x = first
      · obtain ⟨t, ht, _⟩ := mmrGo_extends lam lim rest.length [first] rest
        rw [ht] at heq2
        exact mem_left_of_append_eq [first] y l1 t l2 heq2
          (by simpa using fun hc => hfy hc.symm) x (by simpa using hxf)
      · have hxr : x ∈ rest := by
          rcases List.mem_cons.mp hxs with hc | hc
          · exact absurd hc hxf
          · exact hc
        exact mmrGo_blocked lam lim x y hdom rest.length [first] rest hxr
          (by simpa using fun hc => hfy hc.symm) l1 l2 heq2

/-- C7: temporal decay is monotone in recency: with a positive half-life and
nonnegative (for the pipeline: positive) raw score, a more recent timestamp
never yields a lower decayed score, strictly higher for a strictly newer
timestamp and positive score; the decayed re-sort places a strictly
higher-scored result strictly earlier; and through the whole MMR stage a
result with the same content and strictly higher decayed score is never
ranked below its older twin. -/
theorem C7_monotonic_decay :
    (∀ (s now h tOld tNew : ℝ), 0 < h → 0 ≤ s → tOld ≤ tNew →
      applyTemporalDecay now h s tOld ≤ applyTemporalDecay now h s tNew)
    ∧ (∀ (s now h tOld tNew : ℝ), 0 < h → 0 < s → tOld < tNew →
      applyTemporalDecay now h s tOld < applyTemporalDecay now h s tNew)
    ∧ (∀ (rs : List SearchResult),
      List.Sorted (fun a b : SearchResult => b.score ≤ a.score)
        (sortByScoreDesc rs))
    ∧ (∀ (rs : List SearchResult) (i j : Fin (sortByScoreDesc rs).length),
        ((sortByScoreDesc rs).get i).score < ((sortByScoreDesc rs).get j).score →
        (j : ℕ) < (i : ℕ))
    ∧ (∀ (lam : ℝ) (lim : Int) (cands : List SearchResult)
          (x y : SearchResult),
        0 < lam → x.content = y.content → y.score < x.score → x ∈ cands →
        ∀ l1 l2, mmrRerank (sortByScoreDesc cands) lim lam = l1 ++ y :: l2 →
        x ∈ l1) :=
  ⟨applyTemporalDecay_mono, applyTemporalDecay_strict_mono,
    sortByScoreDesc_sorted, sorted_desc_rank, mmrRerank_rank_preserved⟩

theorem mmrRerank_cons (first : SearchResult) (rest : List SearchResult)
    (lim : Int) (lam : ℝ) (h : rest ≠ []) :
    mmrRerank (first :: rest) lim lam
      = mmrGo lam lim rest.length [first] rest := by
  unfold mmrRerank
  rw [if_neg (by
    simp only [List.length_cons]
    have := List.length_pos.mpr h
    omega)]

/-- C6 (amended): MMR re-ranking enforces no similarity threshold; what holds
is the greedy argmax contract: with at least two candidates the first output
is the highest-scored input, every selection step picks a candidate whose
marginal-relevance score `λ·score − (1−λ)·maxSimilarityToSelected` is
maximal among the remaining candidates (earliest on ties), and the loop
removes exactly the chosen candidate each step. -/
theorem C6_mmr_greedy_argmax :
    (∀ (lam : ℝ) (lim : Int) (first : SearchResult)
        (rest : List SearchResult), rest ≠ [] →
      ∃ t, mmrRerank (first :: rest) lim lam = first :: t ∧ ∀ z ∈ t, z ∈ rest)
    ∧ (∀ (lam : ℝ) (sel : List SearchResult) (c : SearchResult)
          (rest : List SearchResult),
        (pickMax lam sel c rest).1 ∈ c :: rest
        ∧ (∀ z ∈ c :: rest,
            mmrScore lam sel z ≤ mmrScore lam sel (pickMax lam sel c rest).1)
        ∧ (c :: rest).Perm
            ((pickMax lam sel c rest).1 :: (pickMax lam sel c rest).2))
    ∧ (∀ (lam : ℝ) (lim : Int) (fuel : Nat) (sel : List SearchResult)
          (c : SearchResult) (rest : List SearchResult),
        (sel.length : Int) < lim →
        mmrGo lam lim (fuel + 1) sel (c :: rest)
          = mmrGo lam lim fuel (sel ++ [(pickMax lam sel c rest).1])
              (pickMax lam sel c rest).2) := by
  refine ⟨?_, pickMax_spec, ?_⟩
  · intro lam lim first rest hne
    obtain ⟨t, ht, hmem⟩ := mmrGo_extends lam lim rest.length [first] rest
    exact ⟨t, by rw [mmrRerank_cons first rest lim lam hne, ht]; rfl, hmem⟩
  · intro lam lim fuel sel c rest hl
    simp [mmrGo, hl]

/-- The three concrete pipeline candidates refuting the claimed adjacent
similarity bound: two identical high-scored results and one dissimilar
zero-scored result. -/
def mmrCexA : SearchResult := ⟨"p1", "alpha beta", 100, 0⟩

/-- Second counterexample candidate: identical content to the first. -/
def mmrCexB : SearchResult := ⟨"p2", "alpha beta", 100, 0⟩

/-- Third counterexample candidate: dissimilar content, score 0. -/
def mmrCexC : SearchResult := ⟨"p3", "gamma delta", 0, 0⟩

theorem jaccard_alpha_alpha : jaccardSimilarity "alpha beta" "alpha beta" = 1 := by
  have h1 : (splitWs (lowerStr "alpha beta")).dedup = ["alpha", "beta"] := by decide
  simp only [jaccardSimilarity, h1]
  rw [show ((["alpha", "beta"] : List String) ++ ["alpha", "beta"]).dedup
      = ["alpha", "beta"] from by decide]
  rw [show ((["alpha", "beta"] : List String).filter
      (fun x => decide (x ∈ (["alpha", "beta"] : List String))))
      = ["alpha", "beta"] from by decide]
  norm_num

theorem jaccard_alpha_gamma : jaccardSimilarity "alpha beta" "gamma delta" = 0 := by
  have h1 : (splitWs (lowerStr "alpha beta")).dedup = ["alpha", "beta"] := by decide
  have h2 : (splitWs (lowerStr "gamma delta")).dedup = ["gamma", "delta"] := by decide
  simp only [jaccardSimilarity, h1, h2]
  rw [show ((["alpha", "beta"] : List String).filter
      (fun x => decide (x ∈ (["gamma", "delta"] : List String)))) = []
    from by decide]
  norm_num

theorem jaccard_gamma_alpha : jaccardSimilarity "gamma delta" "alpha beta" = 0 := by
  have h1 : (splitWs (lowerStr "alpha beta")).dedup = ["alpha", "beta"] := by decide
  have h2 : (splitWs (lowerStr "gamma delta")).dedup = ["gamma", "delta"] := by decide
  simp only [jaccardSimilarity, h1, h2]
  rw [show ((["gamma", "delta"] : List String).filter
      (fun x => decide (x ∈ (["alpha", "beta"] : List String)))) = []
    from by decide]
  norm_num

/-- C6, counterexample: on these three candidates (two of which are mutually
dissimilar, so two sufficiently dissimilar candidates exist among the
inputs), `mmrRerank` with `limit = 2` and the default `λ = 0.7` returns two
adjacent results of Jaccard similarity 1 > 0.95. -/
theorem C6_counterexample :
    mmrRerank [mmrCexA, mmrCexB, mmrCexC] 2 0.7 = [mmrCexA, mmrCexB]
    ∧ jaccardSimilarity mmrCexA.content mmrCexB.content = 1
    ∧ (0.95 : ℝ) < 1
    ∧ jaccardSimilarity mmrCexA.content mmrCexC.content = 0 := by
  have hmB : mmrScore 0.7 [mmrCexA] mmrCexB = 0.7 * 100 - 0.3 * 1 := by
    simp only [mmrScore, maxSimTo, List.foldl, mmrCexA, mmrCexB,
      jaccard_alpha_alpha]
    norm_num
  have hmC : mmrScore 0.7 [mmrCexA] mmrCexC = 0 := by
    simp only [mmrScore, maxSimTo, List.foldl, mmrCexA, mmrCexC,
      jaccard_gamma_alpha]
    norm_num
  have hcmp : ¬ (mmrScore 0.7 [mmrCexA] mmrCexB
      < mmrScore 0.7 [mmrCexA] mmrCexC) := by
    rw [hmB, hmC]
    norm_num
  have hpick : pickMax 0.7 [mmrCexA] mmrCexB [mmrCexC] = (mmrCexB, [mmrCexC]) := by
    unfold pickMax
    rw [if_neg hcmp]
    rfl
  refine ⟨?_, by simp [mmrCexA, mmrCexB]; exact jaccard_alpha_alpha,
    by norm_num, by simp [mmrCexA, mmrCexC]; exact jaccard_alpha_gamma⟩
  rw [mmrRerank_cons mmrCexA [mmrCexB, mmrCexC] 2 0.7 (by simp)]
  have e1 : mmrGo 0.7 2 2 [mmrCexA] [mmrCexB, mmrCexC]
      = if (([mmrCexA] : List SearchResult).length : Int) < 2 then
          mmrGo 0.7 2 1
            ([mmrCexA] ++ [(pickMax 0.7 [mmrCexA] mmrCexB [mmrCexC]).1])
            (pickMax 0.7 [mmrCexA] mmrCexB [mmrCexC]).2
        else [mmrCexA] := rfl
  rw [show ([mmrCexB, mmrCexC] : List SearchResult).length = 2 from rfl, e1,
    if_pos (by norm_num), hpick]
  have e2 : mmrGo 0.7 2 1 ([mmrCexA] ++ [mmrCexB]) [mmrCexC]
      = if ((([mmrCexA] ++ [mmrCexB] : List SearchResult)).length : Int) < 2 then
          mmrGo 0.7 2 0
            (([mmrCexA] ++ [mmrCexB])
              ++ [(pickMax 0.7 ([mmrCexA] ++ [mmrCexB]) mmrCexC []).1])
            (pickMax 0.7 ([mmrCexA] ++ [mmrCexB]) mmrCexC []).2
        else [mmrCexA] ++ [mmrCexB] := rfl
  show mmrGo 0.7 2 1 ([mmrCexA] ++ [mmrCexB]) [mmrCexC] = [mmrCexA, mmrCexB]
  rw [e2, if_neg (by norm_num)]
  rfl

theorem mmrGo_stop (lam : ℝ) (lim : Int) (fuel : Nat) (sel rem : List SearchResult)
    (h : ¬ ((sel.length : Int) < lim)) : mmrGo lam lim fuel sel rem = sel := by
  cases fuel with
  | zero => rfl
  | succ fuel => cases rem with
    | nil => rfl
    | cons c rest => simp [mmrGo, h]

/-- C8 (amended): the search path performs no parameter validation and has
no error outcome: an out-of-range (negative) limit is passed straight
through, BM25 slicing follows JS `slice` semantics (a negative end drops
trailing candidates), the MMR loop bound `selected.length < limit` is then
immediately false after the first forced selection, and the call returns
normally with at most one result instead of being rejected. -/
theorem C8_no_validation :
    (∀ (ops : List IndexOp) (now halfLife : ℝ) (query : String) (lim : Int),
      lim < 0 →
      (memSearch (applyOps ops) now halfLife query lim).length ≤ 1)
    ∧ (∀ (lim : Int), lim < 0 → ∀ (l : List ScoredDoc),
        jsSliceTo lim l = l.take (l.length - (-lim).toNat)) := by
  constructor
  · intro ops now halfLife q lim hneg
    by_cases hbe : (bm25search (applyOps ops) q (lim * 2)).isEmpty = true
    · simp [memSearch, hbe]
    · rw [show memSearch (applyOps ops) now halfLife q lim
          = mmrRerank (sortByScoreDesc
              ((bm25search (applyOps ops) q (lim * 2)).map
                (fun r => SearchResult.mk r.doc.path r.doc.content
                  (applyTemporalDecay now halfLife r.score (r.doc.timestamp : ℝ))
                  r.doc.timestamp))) lim 0.7 from by
        simp [memSearch, hbe]]
      set sorted := sortByScoreDesc ((bm25search (applyOps ops) q (lim * 2)).map
        (fun r => SearchResult.mk r.doc.path r.doc.content
          (applyTemporalDecay now halfLife r.score (r.doc.timestamp : ℝ))
          r.doc.timestamp)) with hsorted
      unfold mmrRerank
      split
      · next hlen =>
        unfold jsSliceTo
        rw [if_neg (by omega)]
        calc (sorted.take (sorted.length - (-lim).toNat)).length
            ≤ sorted.length := by
              rw [List.length_take]; exact min_le_right _ _
          _ ≤ 1 := hlen
      · next hlen =>
        cases hds : sorted with
        | nil => simp
        | cons first rest =>
          show (mmrGo 0.7 lim rest.length [first] rest).length ≤ 1
          rw [mmrGo_stop 0.7 lim rest.length [first] rest (by
            simp only [List.length_cons]
            omega)]
          simp
  · intro lim hneg l
    unfold jsSliceTo
    rw [if_neg (by omega)]

/-- Four documents all containing the query term, for the C8 counterexample. -/
def c8ops : List IndexOp :=
  [.add "d1" "p1" "hello world" 0, .add "d2" "p2" "hello there" 0,
   .add "d3" "p3" "hello again" 0, .add "d4" "p4" "hello friend" 0]

/-- C8, counterexample: a `search` call with the out-of-range limit `-1` is
not rejected: the pipeline tokenizes, scores all four matching documents,
re-ranks, and returns one constructed result. -/
theorem C8_counterexample :
    ((-1 : Int) < 0)
    ∧ (memSearch (applyOps c8ops) 0 1 "hello" (-1)).length = 1 := by
  refine ⟨by norm_num, ?_⟩
  have hwf := WF_applyOps c8ops
  have hall : ∀ p ∈ (applyOps c8ops).documents,
      hasQueryTerm (tokenize "hello") p.2 = true := by decide
  have hfilter : (((applyOps c8ops).documents.map
      (fun p => ScoredDoc.mk p.2
        (scoreDoc (applyOps c8ops) p.2 (tokenize "hello")))).filter posScore)
      = ((applyOps c8ops).documents.map
        (fun p => ScoredDoc.mk p.2
          (scoreDoc (applyOps c8ops) p.2 (tokenize "hello")))) := by
    apply List.filter_eq_self.mpr
    intro r hr
    obtain ⟨p, hp, rfl⟩ := List.mem_map.mp hr
    exact decide_eq_true
      ((scoreDoc_pos_iff _ hwf p.1 p.2 (by simpa using hp) _).mpr (hall p hp))
  have hlen4 : (applyOps c8ops).documents.length = 4 := by decide
  have hbm : (bm25search (applyOps c8ops) "hello" (-2)).length = 2 := by
    show (jsSliceTo (-2) ((((applyOps c8ops).documents.map
      (fun p => ScoredDoc.mk p.2
        (scoreDoc (applyOps c8ops) p.2 (tokenize "hello")))).filter
          posScore).mergeSort scoreLe)).length = 2
    rw [hfilter]
    unfold jsSliceTo
    rw [if_neg (by norm_num)]
    rw [List.length_take, (List.mergeSort_perm _ scoreLe).length_eq,
      List.length_map, hlen4]
    decide
  have hne : ((bm25search (applyOps c8ops) "hello" (-2)).isEmpty) = false := by
    cases hbl : bm25search (applyOps c8ops) "hello" (-2) with
    | nil => rw [hbl] at hbm; simp at hbm
    | cons a l => simp [List.isEmpty]
  rw [show memSearch (applyOps c8ops) 0 1 "hello" (-1)
      = mmrRerank (sortByScoreDesc
          ((bm25search (applyOps c8ops) "hello" (-2)).map
            (fun r => SearchResult.mk r.doc.path r.doc.content
              (applyTemporalDecay 0 1 r.score (r.doc.timestamp : ℝ))
              r.doc.timestamp))) (-1) 0.7 from by
    simp [memSearch, show ((-1 : Int) * 2) = -2 from by norm_num, hne]]
  have hslen : (sortByScoreDesc
      ((bm25search (applyOps c8ops) "hello" (-2)).map
        (fun r => SearchResult.mk r.doc.path r.doc.content
          (applyTemporalDecay 0 1 r.score (r.doc.timestamp : ℝ))
          r.doc.timestamp))).length = 2 := by
    unfold sortByScoreDesc
    rw [(List.mergeSort_perm _ srLe).length_eq, List.length_map, hbm]
  cases hsl : sortByScoreDesc
      ((bm25search (applyOps c8ops) "hello" (-2)).map
        (fun r => SearchResult.mk r.doc.path r.doc.content
          (applyTemporalDecay 0 1 r.score (r.doc.timestamp : ℝ))
          r.doc.timestamp)) with
  | nil => rw [hsl] at hslen; simp at hslen
  | cons f r =>
    rw [hsl] at hslen
    have hr : r ≠ [] := by
      intro hc
      rw [hc] at hslen
      simp at hslen
    rw [mmrRerank_cons f r (-1) 0.7 hr,
      mmrGo_stop 0.7 (-1) r.length [f] r (by simp)]
    simp

/-! The context compactor of `MemorySystem` and the transcript data model. -/

/-- The role of a transcript entry. -/
inductive Role where
  | user
  | assistant
  | tool
  deriving DecidableEq

/-- The optional `toolCall` payload of a `TranscriptEntry`. -/
structure ToolCall where
  id : String
  name : String
  arguments : String
  deriving DecidableEq

/-- The optional `toolResult` payload of a `TranscriptEntry`. -/
structure ToolResult where
  callId : String
  success : Bool
  output : String
  deriving DecidableEq

/-- Record `TranscriptEntry` of `session-manager.ts`. -/
structure TranscriptEntry where
  id : String
  role : Role
  content : String
  timestamp : Int
  toolCall : Option ToolCall := none
  toolResult : Option ToolResult := none
  deriving DecidableEq

/-- Source `MemorySystem.estimateTokens`: `Math.ceil(text.length / 4)`. -/
def estimateTokens (text : String) : Nat := (text.length + 3) / 4

/-- The token total `compact` sums over a history. -/
def totalTokens (history : List TranscriptEntry) : Nat :=
  (history.map (fun e => estimateTokens e.content)).sum

/-- JavaScript `content.split(/[.!?]+/)` (runs of sentence punctuation). -/
def splitSentences (content : String) : List String :=
  (splitRuns (fun c => c = '.' || c = '!' || c = '?') content.toList).map
    (fun cs => String.mk cs)

/-- JavaScript `String.prototype.trim` over the ASCII whitespace model. -/
def trimStr (s : String) : String :=
  String.mk (((s.toList.dropWhile Char.isWhitespace).reverse.dropWhile
    Char.isWhitespace).reverse)

/-- A JS `\w` word character. -/
def isWordChar (c : Char) : Bool :=
  ('a' ≤ c && c ≤ 'z') || ('A' ≤ c && c ≤ 'Z') || ('0' ≤ c && c ≤ '9') || c = '_'

/-- Boundary `\b` to the left of the scan position: start of string or a non-word
character before it. -/
def boundaryBefore : Option Char → Bool
  | none => true
  | some c => !isWordChar c

/-- Does `w` start here, followed by a `\b` (end of string or non-word)? -/
def cueAt (w l : List Char) : Bool :=
  w.isPrefixOf l &&
    (match l.drop w.length with
     | [] => true
     | c :: _ => !isWordChar c)

/-- Scan for a `\b w \b` occurrence; `prev` is the character left of the
position. -/
def containsWordFrom (w : List Char) : Option Char → List Char → Bool
  | prev, [] => boundaryBefore prev && cueAt w []
  | prev, c :: rest =>
    (boundaryBefore prev && cueAt w (c :: rest)) || containsWordFrom w (some c) rest

/-- Test `/\b(...)\b/i.test(s)` for a single lowercase alternative `w`. -/
def containsWord (s w : String) : Bool :=
  containsWordFrom w.toList none (lowerStr s).toList

/-- The definition cues of `extractFacts`. -/
def definitionCues : List String := ["is", "are", "was", "were", "means", "refers to"]

/-- The preference cues of `extractFacts`. -/
def preferenceCues : List String := ["prefer", "like", "want", "need", "should", "must"]

/-- The generalized-statement cues of `extractFacts`. -/
def statementCues : List String := ["always", "never", "usually", "typically", "important"]

/-- A sentence that looks like a fact: any of the three cue regexes matches. -/
def isFactSentence (t : String) : Bool :=
  definitionCues.any (containsWord t) || preferenceCues.any (containsWord t)
    || statementCues.any (containsWord t)

/-- Truncation of an extracted fact to 100 characters plus an ellipsis. -/
def truncateFact (trimmed : String) : String :=
  if 100 < trimmed.length then String.mk (trimmed.toList.take 100) ++ "..."
  else trimmed

/-- The per-entry sentence loop of `extractFacts`: push each fact-like
sentence, stopping (after the push) once 10 facts are collected. -/
def factsOfSentences (facts : List String) : List String → List String
  | [] => facts
  | s :: rest =>
    let trimmed := trimStr s
    if isFactSentence trimmed then
      let facts2 := facts ++ [truncateFact trimmed]
      if 10 ≤ facts2.length then facts2 else factsOfSentences facts2 rest
    else factsOfSentences facts rest

/-- The entry loop of `extractFacts`: skip tool entries, scan sentences of
length > 10 after trimming, stop at 10 facts. -/
def extractFactsGo (facts : List String) : List TranscriptEntry → List String
  | [] => facts
  | e :: rest =>
    if e.role = Role.tool then extractFactsGo facts rest
    else
      let sentences := (splitSentences e.content).filter
        (fun s => 10 < (trimStr s).length)
      let facts2 := factsOfSentences facts sentences
      if 10 ≤ facts2.length then facts2 else extractFactsGo facts2 rest

/-- Source `MemorySystem.extractFacts`. -/
def extractFacts (entries : List TranscriptEntry) : List String :=
  extractFactsGo [] entries

/-- What `compact` returns, plus the note `flushFactsToDisk` writes (`none`
when nothing is flushed). -/
structure CompactResult where
  compactedHistory : List TranscriptEntry
  flushedFacts : List String
  note : Option (List String)
  deriving DecidableEq

/-- The backward walk of `compact`: fed the reversed history, it accumulates
entries while they fit within `recentLimit`, stopping at the first that does
not. -/
def takeRecentGo (recentLimit : Nat) (acc : List TranscriptEntry) (tok : Nat) :
    List TranscriptEntry → List TranscriptEntry
  | [] => acc
  | e :: rest =>
    if tok + estimateTokens e.content ≤ recentLimit then
      takeRecentGo recentLimit (e :: acc) (tok + estimateTokens e.content) rest
    else acc

/-- The content of the synthetic summary entry. -/
def summaryContent (facts : List String) : String :=
  "[Context Summary: " ++ String.intercalate "; " facts ++ "]"

/-- The `recentMessages` local of `compact`: the backward walk under
`recentLimit = Math.floor(limit * 0.7)` (exactly `7 * limit / 10` on the
integer budgets the callers pass). -/
def recentOf (history : List TranscriptEntry) (limit : Nat) : List TranscriptEntry :=
  takeRecentGo (7 * limit / 10) [] 0 history.reverse

/-- The `olderMessages` local of `compact`. -/
def olderOf (history : List TranscriptEntry) (limit : Nat) : List TranscriptEntry :=
  history.take (history.length - (recentOf history limit).length)

/-- The synthetic summary entry `compact` constructs: role `assistant`,
content a rendered fact list, timestamp of the oldest discarded entry
(`olderMessages[0]?.timestamp ?? Date.now()`). -/
def summaryEntryOf (facts : List String) (older : List TranscriptEntry)
    (nowMs : Int) : TranscriptEntry :=
  { id := "summary-" ++ toString nowMs, role := Role.assistant,
    content := summaryContent facts,
    timestamp := match older with
      | [] => nowMs
      | e :: _ => e.timestamp }

/-- Source `MemorySystem.compact(history, maxTokens)`.  `nowMs` stands for
`Date.now()`.  The `note` field records the facts note `flushFactsToDisk`
persists (written exactly when facts were flushed). -/
def compact (history : List TranscriptEntry) (limit : Nat) (nowMs : Int) :
    CompactResult :=
  if totalTokens history ≤ limit then
    ⟨history, [], none⟩
  else if 0 < (olderOf history limit).length
      ∧ 0 < (extractFacts (olderOf history limit)).length then
    ⟨summaryEntryOf (extractFacts (olderOf history limit)) (olderOf history limit)
        nowMs :: recentOf history limit,
      extractFacts (olderOf history limit),
      some (extractFacts (olderOf history limit))⟩
  else ⟨recentOf history limit, [], none⟩

theorem takeRecentGo_bound (rl : Nat) :
    ∀ (l acc : List TranscriptEntry) (tok : Nat), tok ≤ rl →
    ∃ added, takeRecentGo rl acc tok l = added ++ acc
      ∧ tok + totalTokens added ≤ rl := by
  intro l
  induction l with
  | nil =>
    intro acc tok htok
    exact ⟨[], rfl, by simpa [totalTokens]⟩
  | cons e rest ih =>
    intro acc tok htok
    by_cases hfit : tok + estimateTokens e.content ≤ rl
    · obtain ⟨added, heq, hle⟩ := ih (e :: acc) (tok + estimateTokens e.content) hfit
      refine ⟨added ++ [e], ?_, ?_⟩
      · rw [show takeRecentGo rl acc tok (e :: rest)
            = takeRecentGo rl (e :: acc) (tok + estimateTokens e.content) rest from by
          simp [takeRecentGo, hfit]]
        rw [heq, List.append_assoc, List.singleton_append]
      · have ht : totalTokens (added ++ [e])
            = totalTokens added + estimateTokens e.content := by
          simp [totalTokens]
        omega
    · exact ⟨[], by simp [takeRecentGo, hfit], by simpa [totalTokens] using htok⟩

theorem totalTokens_recentOf (history : List TranscriptEntry) (limit : Nat) :
    totalTokens (recentOf history limit) ≤ 7 * limit / 10 := by
  obtain ⟨added, heq, hle⟩ :=
    takeRecentGo_bound (7 * limit / 10) history.reverse [] 0 (Nat.zero_le _)
  unfold recentOf
  rw [heq, List.append_nil]
  omega

/-- C5 (amended): `compact` is a no-op within budget; over budget, the
retained recent entries total at most `⌊0.7·budget⌋`, so whenever no
synthetic summary is produced the retained total is within the budget — but
when a summary is produced the retained total is only bounded by
`⌊0.7·budget⌋` plus the summary entry's own token estimate, which can exceed
the budget even when the budget covers the most recent entry. -/
theorem C5_amended_compaction_bound :
    (∀ (history : List TranscriptEntry) (limit : Nat) (nowMs : Int),
      totalTokens history ≤ limit →
      compact history limit nowMs = ⟨history, [], none⟩)
    ∧ (∀ (history : List TranscriptEntry) (limit : Nat) (nowMs : Int),
        limit < totalTokens history →
        totalTokens (compact history limit nowMs).compactedHistory
          ≤ 7 * limit / 10
            + (match (compact history limit nowMs).note with
               | some facts => estimateTokens (summaryContent facts)
               | none => 0))
    ∧ (∀ (history : List TranscriptEntry) (limit : Nat) (nowMs : Int),
        (compact history limit nowMs).note = none →
        totalTokens (compact history limit nowMs).compactedHistory ≤ limit) := by
  refine ⟨?_, ?_, ?_⟩
  · intro history limit nowMs h
    simp [compact, h]
  · intro history limit nowMs h
    have hrec := totalTokens_recentOf history limit
    unfold compact
    rw [if_neg (not_le.mpr h)]
    by_cases hcond : 0 < (olderOf history limit).length
        ∧ 0 < (extractFacts (olderOf history limit)).length
    · rw [if_pos hcond]
      have : totalTokens (summaryEntryOf (extractFacts (olderOf history limit))
            (olderOf history limit) nowMs :: recentOf history limit)
          = estimateTokens (summaryContent (extractFacts (olderOf history limit)))
            + totalTokens (recentOf history limit) := by
        simp [totalTokens, summaryEntryOf]
      simp only [this]
      omega
    · rw [if_neg hcond]
      simp only
      omega
  · intro history limit nowMs h
    by_cases hin : totalTokens history ≤ limit
    · simp [compact, hin]
    · have hrec := totalTokens_recentOf history limit
      unfold compact at h ⊢
      rw [if_neg hin] at h ⊢
      by_cases hcond : 0 < (olderOf history limit).length
          ∧ 0 < (extractFacts (olderOf history limit)).length
      · rw [if_pos hcond] at h
        simp at h
      · rw [if_neg hcond]
        simp only
        omega

/-- Two concrete entries for the C5 counterexample: a fact-bearing older
entry and a one-token newest entry. -/
def c5older : TranscriptEntry :=
  ⟨"e1", Role.user, "users always prefer dark mode in every user interface", 0,
    none, none⟩

/-- The newest entry of the C5 counterexample (1 estimated token). -/
def c5newest : TranscriptEntry := ⟨"e2", Role.user, "ok", 1, none, none⟩

/-- C5, counterexample: with budget 1 ≥ the newest entry's estimate (1), the
history exceeds the budget, compaction keeps no recent entries but produces a
synthetic summary whose estimate alone (18 tokens) exceeds the budget — the
retained token total is not ≤ the budget. -/
theorem C5_counterexample :
    estimateTokens c5newest.content ≤ 1
    ∧ 1 < totalTokens [c5older, c5newest]
    ∧ 1 < totalTokens (compact [c5older, c5newest] 1 0).compactedHistory := by
  decide

/-- C9: when the history exceeds the budget, the newest entry alone exceeds
70 % of the budget, and no discarded entry yields a fact, `compact` returns
an empty retained history, an empty fact list, and writes no note. -/
theorem C9_compact_discards_everything (history : List TranscriptEntry)
    (limit : Nat) (nowMs : Int) (hover : limit < totalTokens history)
    (hbig : ∀ e, history.reverse.head? = some e →
      7 * limit / 10 < estimateTokens e.content)
    (hnofacts : extractFacts history = []) :
    compact history limit nowMs = ⟨[], [], none⟩ := by
  have hrecent : recentOf history limit = [] := by
    unfold recentOf
    cases hr : history.reverse with
    | nil => rfl
    | cons e rest =>
      have := hbig e (by rw [hr]; rfl)
      simp [takeRecentGo, Nat.not_le.mpr this]
  have holder : olderOf history limit = history := by
    unfold olderOf
    rw [hrecent]
    simp
  unfold compact
  rw [if_neg (not_le.mpr hover),
    if_neg (by rw [holder, hnofacts]; simp), hrecent]

/-- C9, witness: a concrete one-entry history with no fact cues and budget 1
is discarded entirely: nothing retained, no facts, no note. -/
theorem C9_witness :
    compact [⟨"w1", Role.user, "zebra zebra zebra zebra zebra", 0, none, none⟩]
      1 0 = ⟨[], [], none⟩ :=
  C9_compact_discards_everything _ 1 0 (by decide) (by decide) (by decide)

/-! The transcript store (`SessionManager`). -/

/-- The metadata header record of a transcript file (`SessionMetadata`). -/
structure SessionMetadata where
  id : String
  createdAt : Int
  version : Int
  deriving DecidableEq

/-- One physical line of a transcript log, modelled by its parse class: a
`#`-prefixed line whose remainder parses as metadata (`meta`), a line that
parses as a transcript entry (`entry`), a `#`-prefixed line whose remainder
is not valid JSON (`badMeta`), any other non-blank line that is not valid
JSON (`bad`), and a blank line.  Serialized values are carried as the values
themselves: `JSON.parse ∘ JSON.stringify = id` on these records is the host
JSON library's contract, and `JSON.stringify` of a record always yields one
non-blank line starting with a brace, never `#`. -/
inductive TLine where
  | meta (m : SessionMetadata)
  | entry (e : TranscriptEntry)
  | badMeta (s : String)
  | bad (s : String)
  | blank
  deriving DecidableEq

/-- Source `SessionManager.create()`: the fresh log holds one metadata header line. -/
def createFile (m : SessionMetadata) : List TLine := [TLine.meta m]

/-- What the caller passes to `appendMessage`
(`Omit<TranscriptEntry, 'id' | 'timestamp'>`). -/
structure MsgDraft where
  role : Role
  content : String
  toolCall : Option ToolCall := none
  toolResult : Option ToolResult := none
  deriving DecidableEq

/-- The full entry `appendMessage` constructs: fresh id and timestamp, then
the draft's fields (the object spread overwrites nothing because the draft
carries no `id`/`timestamp`). -/
def mkEntry (d : MsgDraft) (newId : String) (nowTs : Int) : TranscriptEntry :=
  ⟨newId, d.role, d.content, nowTs, d.toolCall, d.toolResult⟩

/-- Source `SessionManager.appendMessage` on an existing log: append one
self-contained serialized line; returns the constructed entry. -/
def appendMessage (file : List TLine) (d : MsgDraft) (newId : String)
    (nowTs : Int) : List TLine × TranscriptEntry :=
  (file ++ [TLine.entry (mkEntry d newId nowTs)], mkEntry d newId nowTs)

/-- Source `SessionManager.getHistory`: read top to bottom, skip blank and
`#`-prefixed lines, parse each remaining line and silently skip parse
failures. -/
def getHistory (file : List TLine) : List TranscriptEntry :=
  file.filterMap (fun l => match l with
    | TLine.entry e => some e
    | _ => none)

/-- The record `repair` returns. -/
structure RepairResult where
  repaired : Bool
  entriesRecovered : Nat
  entriesLost : Nat
  deriving DecidableEq

/-- A line `repair` keeps in `validLines`: parses as metadata or an entry. -/
def keptLine : TLine → Bool
  | TLine.meta _ => true
  | TLine.entry _ => true
  | _ => false

/-- A parsable `#` metadata line. -/
def isMetaLine : TLine → Bool
  | TLine.meta _ => true
  | _ => false

/-- A parsable entry line. -/
def isEntryLine : TLine → Bool
  | TLine.entry _ => true
  | _ => false

/-- An unparseable line not beginning with `#` — the only kind
`entriesLost` counts. -/
def isBadLine : TLine → Bool
  | TLine.bad _ => true
  | _ => false

/-- Any syntactically invalid (unparseable, non-blank) line, `#`-prefixed or
not: what the specification's "invalid lines" denotes. -/
def isInvalidLine : TLine → Bool
  | TLine.bad _ => true
  | TLine.badMeta _ => true
  | _ => false

/-- Source `SessionManager.repair(id)`: keep every parsable line in order, count
recovered entries and discarded non-`#` unparseable lines (a malformed `#`
line is dropped but not counted; blank lines are skipped), synthesize a
metadata header from the file's birthtime when no metadata line parsed, and
rewrite the log with only the kept lines.  `repaired = entriesLost > 0`. -/
def repair (file : List TLine) (sessionId : String) (birthtime : Int) :
    RepairResult × List TLine :=
  (⟨decide (0 < (file.filter isBadLine).length),
      (file.filter isEntryLine).length,
      (file.filter isBadLine).length⟩,
    if file.any isMetaLine then file.filter keptLine
    else TLine.meta ⟨sessionId, birthtime, 1⟩ :: file.filter keptLine)

/-- C3: transcript round-trip — for a fresh session and any sequence of
drafts appended through `appendMessage` (with their assigned ids and
timestamps), `getHistory` returns exactly the appended entries, in append
order, with every field (role, content, timestamp, assigned id, toolCall,
toolResult) preserved unchanged. -/
theorem C3_transcript_roundtrip (m0 : SessionMetadata)
    (msgs : List (MsgDraft × String × Int)) :
    getHistory (msgs.foldl
        (fun f x => (appendMessage f x.1 x.2.1 x.2.2).1) (createFile m0))
      = msgs.map (fun x => mkEntry x.1 x.2.1 x.2.2) := by
  have main : ∀ (l : List (MsgDraft × String × Int)) (file : List TLine),
      getHistory (l.foldl (fun f x => (appendMessage f x.1 x.2.1 x.2.2).1) file)
        = getHistory file ++ l.map (fun x => mkEntry x.1 x.2.1 x.2.2) := by
    intro l
    induction l with
    | nil => intro file; simp
    | cons x rest ih =>
      intro file
      rw [List.foldl_cons, ih, List.map_cons]
      have : getHistory ((appendMessage file x.1 x.2.1 x.2.2).1)
          = getHistory file ++ [mkEntry x.1 x.2.1 x.2.2] := by
        unfold appendMessage getHistory
        simp
      rw [this, List.append_assoc, List.singleton_append]
  rw [main msgs (createFile m0)]
  rfl

theorem getHistory_filter_kept (file : List TLine) :
    getHistory (file.filter keptLine) = getHistory file := by
  induction file with
  | nil => rfl
  | cons l rest ih =>
    cases l <;>
      simp [getHistory, keptLine, List.filter_cons, List.filterMap_cons] at ih ⊢ <;>
      exact ih

theorem length_entryFilter (file : List TLine) :
    (file.filter isEntryLine).length = (getHistory file).length := by
  induction file with
  | nil => rfl
  | cons l rest ih =>
    cases l <;>
      simp [getHistory, isEntryLine, List.filter_cons, List.filterMap_cons]
        at ih ⊢ <;>
      exact ih

/-- C4 (amended): `repair` reports `recovered` = the number of parsable
entry lines — exactly the length of the history `getHistory` returns — and
`discarded` = the number of unparseable lines NOT beginning with `#`:
unparseable `#`-prefixed lines are dropped from the rewrite without being
counted, and blank lines are skipped uncounted.  The rewritten log keeps
exactly the parsable lines in original order (plus a synthesized header when
no metadata parsed), so a subsequent `getHistory` returns exactly the valid
entries in their original relative order; `repaired` holds iff a counted
line was discarded. -/
theorem C4_amended_repair (file : List TLine) (sid : String) (bt : Int) :
    (repair file sid bt).1.entriesRecovered = (getHistory file).length
    ∧ (repair file sid bt).1.entriesLost = (file.filter isBadLine).length
    ∧ getHistory (repair file sid bt).2 = getHistory file
    ∧ ((repair file sid bt).1.repaired = true
        ↔ 0 < (file.filter isBadLine).length) := by
  refine ⟨length_entryFilter file, rfl, ?_, by simp [repair]⟩
  show getHistory (if file.any isMetaLine then file.filter keptLine
    else TLine.meta ⟨sid, bt, 1⟩ :: file.filter keptLine) = getHistory file
  split
  · exact getHistory_filter_kept file
  · rw [show getHistory (TLine.meta ⟨sid, bt, 1⟩ :: file.filter keptLine)
        = getHistory (file.filter keptLine) from rfl]
    exact getHistory_filter_kept file

/-- The entry of the C4 counterexample log. -/
def c4entry : TranscriptEntry := ⟨"id1", Role.user, "hi there", 5, none, none⟩

/-- The C4 counterexample log: a valid header, one valid entry, and one
syntactically invalid line that begins with `#`. -/
def c4file : List TLine :=
  [TLine.meta ⟨"s1", 0, 1⟩, TLine.entry c4entry, TLine.badMeta "#oops"]

/-- C4, counterexample: the log contains m = 1 syntactically invalid line,
but `repair` reports `discarded = 0` (and `recovered = 1`): an invalid line
beginning with `#` is dropped without being counted. -/
theorem C4_counterexample :
    (c4file.filter isInvalidLine).length = 1
    ∧ (repair c4file "s1" 0).1.entriesLost = 0
    ∧ (repair c4file "s1" 0).1.entriesRecovered = 1 := by
  decide

theorem repair_snd_kept (file : List TLine) (sid : String) (bt : Int) :
    ∀ l ∈ (repair file sid bt).2, keptLine l = true := by
  intro l hl
  have hl2 : l ∈ (if file.any isMetaLine then file.filter keptLine
      else TLine.meta ⟨sid, bt, 1⟩ :: file.filter keptLine) := hl
  split at hl2
  · exact List.of_mem_filter hl2
  · rcases List.mem_cons.mp hl2 with rfl | h
    · rfl
    · exact List.of_mem_filter h

theorem repair_snd_hasMeta (file : List TLine) (sid : String) (bt : Int) :
    (repair file sid bt).2.any isMetaLine = true := by
  show (if file.any isMetaLine then file.filter keptLine
    else TLine.meta ⟨sid, bt, 1⟩ :: file.filter keptLine).any isMetaLine = true
  split
  · next hany =>
    obtain ⟨l, hl, hml⟩ := List.any_eq_true.mp hany
    have hkl : keptLine l = true := by cases l <;> simp [isMetaLine, keptLine] at *
    exact List.any_eq_true.mpr ⟨l, List.mem_filter.mpr ⟨hl, hkl⟩, hml⟩
  · exact List.any_eq_true.mpr ⟨TLine.meta ⟨sid, bt, 1⟩,
      List.mem_cons_self _ _, rfl⟩

theorem entryFilter_of_kept (file : List TLine) :
    (file.filter keptLine).filter isEntryLine = file.filter isEntryLine := by
  rw [List.filter_filter]
  apply List.filter_congr
  intro l _
  cases l <;> rfl

/-- C10: repair is idempotent — running `repair` again right after a first
`repair` reports `discarded = 0` and `repaired = false`, reports `recovered`
equal to the number of entries that survived the first repair, and leaves
the rewritten log unchanged. -/
theorem C10_repair_idempotent (file : List TLine) (sid : String) (bt : Int)
    (sid2 : String) (bt2 : Int) :
    (repair (repair file sid bt).2 sid2 bt2).1.entriesLost = 0
    ∧ (repair (repair file sid bt).2 sid2 bt2).1.repaired = false
    ∧ (repair (repair file sid bt).2 sid2 bt2).1.entriesRecovered
        = (repair file sid bt).1.entriesRecovered
    ∧ (repair (repair file sid bt).2 sid2 bt2).2 = (repair file sid bt).2 := by
  have hkept := repair_snd_kept file sid bt
  have hbad : (repair file sid bt).2.filter isBadLine = [] := by
    rw [List.filter_eq_nil]
    intro l hl
    have := hkept l hl
    cases l <;> simp [keptLine, isBadLine] at *
  have hkeptfix : (repair file sid bt).2.filter keptLine = (repair file sid bt).2 :=
    List.filter_eq_self.mpr hkept
  have hrec : (repair file sid bt).2.filter isEntryLine
      = file.filter isEntryLine := by
    show (if file.any isMetaLine then file.filter keptLine
        else TLine.meta ⟨sid, bt, 1⟩ :: file.filter keptLine).filter isEntryLine
      = file.filter isEntryLine
    split
    · exact entryFilter_of_kept file
    · rw [List.filter_cons]
      simp only [isEntryLine]
      exact entryFilter_of_kept file
  refine ⟨?_, ?_, ?_, ?_⟩
  · show ((repair file sid bt).2.filter isBadLine).length = 0
    rw [hbad]
    rfl
  · show decide (0 < ((repair file sid bt).2.filter isBadLine).length) = false
    rw [hbad]
    rfl
  · show ((repair file sid bt).2.filter isEntryLine).length
      = (file.filter isEntryLine).length
    rw [hrec]
  · show (if (repair file sid bt).2.any isMetaLine
        then (repair file sid bt).2.filter keptLine
        else TLine.meta ⟨sid2, bt2, 1⟩ :: (repair file sid bt).2.filter keptLine)
      = (repair file sid bt).2
    rw [if_pos (repair_snd_hasMeta file sid bt), hkeptfix]

end OpenClaw
